import Mathlib

/-!
Verification of the codebash25 shift-scheduling core.

This file gives a shallow embedding, in Lean 4, of the scoring simulator,
the constraint validators, the greedy schedulers and the shift-merging step
of the repository, and proves (or refutes) the frozen claims about them.

Conventions of the embedding:
* JS strings are modelled as `List Char` (skill identifiers).
* JS objects and `Map`s are modelled as association lists in insertion
  order; `lookupA` is `Map.get` / property access, `setA` is `Map.set` /
  property assignment (replacing in place, appending fresh keys).
* JS numbers are modelled as `Nat` where the source only ever holds
  parsed non-negative integers (ids, hours, salaries, rates, points), and
  as `ℚ` where fractional coverage values 0.5 flow in (coverage, capacity,
  profit).  Every concrete value appearing in the claims (halves, small
  integer sums) is exactly representable, so exact arithmetic agrees with
  the source's float arithmetic on the runs considered here.
* Source functions that would crash on a dangling id reference (the JS
  would throw on `undefined`) are totalised with a default; every theorem
  that touches such a lookup carries hypotheses making the lookup succeed,
  which is the regime the source itself runs in (schedules are validated
  before scoring).
-/

/-- Skill identifiers are JS strings, modelled as lists of characters. -/
abbrev Skill := List Char

/-- Lookup in an association list (JS `Map.get` / object property read):
first binding of the key, if any. -/
def lookupA {α β : Type} [DecidableEq α] : List (α × β) → α → Option β
  | [], _ => none
  | (k', v) :: rest, k => if k' = k then some v else lookupA rest k

/-- Update in an association list (JS `Map.set` / object property write):
replaces the first binding in place, appends if the key is fresh. -/
def setA {α β : Type} [DecidableEq α] : List (α × β) → α → β → List (α × β)
  | [], k, v => [(k, v)]
  | (k', v') :: rest, k, v =>
      if k' = k then (k, v) :: rest else (k', v') :: setA rest k v

namespace Bah3

/-! ### Data model of `src/bah3.js` (classes `Shift`, `Day`, `Employee`,
`EmployeeState`, lines 974-1125).  The JS field `end` is a Lean keyword
and is rendered `stop`. -/

/-- Shift record (`class Shift`, bah3.js lines 974-995). -/
structure Shift where
  employeeId : Nat
  start : Nat
  stop : Nat
  skill : Skill
deriving DecidableEq

/-- Day record (`class Day`, bah3.js lines 1000-1032). -/
structure Day where
  id : Nat
  isOpen : Bool
  start : Nat
  stop : Nat
  dailyRevenue : Nat
  requiredSkills : List Skill
deriving DecidableEq

/-- Derived demand denominator (`get totalRequiredSkillHours`,
bah3.js lines 1029-1031). -/
def Day.totalRequiredSkillHours (d : Day) : Nat :=
  if d.isOpen then (d.stop - d.start) * d.requiredSkills.length else 0

/-- Employee record (`class Employee`, bah3.js lines 1037-1072).
`knownSkills` is the JS `Set<string>`, modelled as a list used with set
semantics (membership tests, duplicate-free insertion). -/
structure Employee where
  id : Nat
  maxHoursPerWeek : Nat
  salaryPerHour : Nat
  learningRate : Nat
  teachingRate : Nat
  knownSkills : List Skill
  vacationDays : List Nat
deriving DecidableEq

instance : Inhabited Employee := ⟨⟨0, 0, 0, 0, 0, [], []⟩⟩

/-- Organization settings (bah3.js lines 1155-1159). -/
structure Organization where
  overtimeModifierPercent : Nat
  fixedDailyCost : Nat
deriving DecidableEq

/-- Week index of a day id (`EmployeeState.getWeekIndex`, bah3.js
line 1090: `Math.floor((dayId - 1) / 7)`).  Day ids are 1-based in the
domain model, on which `Nat` subtraction and division agree with the JS
floor arithmetic. -/
def getWeekIndex (dayId : Nat) : Nat := (dayId - 1) / 7

/-- Dynamic per-employee simulation state (`class EmployeeState`,
bah3.js lines 1077-1125). -/
structure EmployeeState where
  weeklyHours : List (Nat × Nat)
  trainingPoints : List (Skill × Nat)
deriving DecidableEq

instance : Inhabited EmployeeState := ⟨⟨[], []⟩⟩

/-- Hours already booked in the week of `dayId`
(`getHoursThisWeek`, bah3.js lines 1097-1100). -/
def EmployeeState.getHoursThisWeek (st : EmployeeState) (dayId : Nat) : Nat :=
  (lookupA st.weeklyHours (getWeekIndex dayId)).getD 0

/-- Book one hour on the week of `dayId` (`addHour`, bah3.js
lines 1105-1108). -/
def EmployeeState.addHour (st : EmployeeState) (dayId : Nat) : EmployeeState :=
  { st with
    weeklyHours := setA st.weeklyHours (getWeekIndex dayId) (st.getHoursThisWeek dayId + 1) }

/-- Training points for a skill (`getTrainingPoints`, bah3.js
lines 1114-1116). -/
def EmployeeState.getTrainingPoints (st : EmployeeState) (skill : Skill) : Nat :=
  (lookupA st.trainingPoints skill).getD 0

/-- Accumulate training points (`addTrainingPoints`, bah3.js
lines 1122-1124). -/
def EmployeeState.addTrainingPoints (st : EmployeeState) (skill : Skill)
    (points : Nat) : EmployeeState :=
  { st with
    trainingPoints := setA st.trainingPoints skill (st.getTrainingPoints skill + points) }

end Bah3

namespace Bah3

/-! ### The scoring simulator (`CodeBashSolver.calculateScore`,
bah3.js lines 1428-1552), decomposed hour by hour exactly as the source's
loops are nested. -/

/-- Mutable simulation state threaded through the hourly loop:
`simEmployees` (the per-run clones whose `knownSkills` get promoted),
`states` (the per-run `EmployeeState`s) and `staged` (the
`newSkillsLearned` map of promotions awaiting the start of the next
hour, keyed by employee id, bah3.js line 1452). -/
structure SimState where
  simEmployees : List (Nat × Employee)
  states : List (Nat × EmployeeState)
  staged : List (Nat × Skill)
deriving DecidableEq

/-- Fresh state for one scoring run (bah3.js lines 1432-1437). -/
def initialSimState (employees : List Employee) : SimState :=
  { simEmployees := employees.map (fun e => (e.id, e))
    states := employees.map (fun e => (e.id, (default : EmployeeState)))
    staged := [] }

/-- Directory lookup `this.employees.get(empId)` (totalised; theorems
assume the id is present). -/
def findEmployee (employees : List Employee) (empId : Nat) : Option Employee :=
  employees.find? (fun e => e.id == empId)

/-- Known-skill set of an employee's simulation clone. -/
def knownOf (simEmployees : List (Nat × Employee)) (empId : Nat) : List Skill :=
  ((lookupA simEmployees empId).map Employee.knownSkills).getD []

/-- JS `Set.add`: insert if absent, at the end. -/
def addSkill (l : List Skill) (s : Skill) : List Skill :=
  if s ∈ l then l else l ++ [s]

/-- Step 1 of each hour: apply the promotions staged during the previous
hour (bah3.js lines 1457-1463). -/
def applyStaged (simEmployees : List (Nat × Employee)) (staged : List (Nat × Skill)) :
    List (Nat × Employee) :=
  staged.foldl
    (fun m p =>
      match lookupA m p.1 with
      | none => m
      | some emp => setA m p.1 { emp with knownSkills := addSkill emp.knownSkills p.2 })
    simEmployees

/-- Shifts active at hour `h` (bah3.js line 1465:
`s.start <= h && s.end > h`). -/
def activeAt (shifts : List Shift) (h : Nat) : List Shift :=
  shifts.filter (fun s => decide (s.start ≤ h ∧ h < s.stop))

/-- Distinct employee ids of the active shifts, in first-occurrence order
(the JS `Set` built on bah3.js line 1466). -/
def activeEmployeeIds (active : List Shift) : List Nat :=
  active.foldl (fun acc s => if s.employeeId ∈ acc then acc else acc ++ [s.employeeId]) []

/-- Coverage value of one (hour, skill) cell from the counts of trained
and untrained active workers — the if-chain of bah3.js lines 1476-1482
(1 for a trained worker, else 1 for at least two untrained, else ½ for
exactly one untrained, else 0). -/
def skillCoverage (trainedCount untrainedCount : Nat) : ℚ :=
  if 0 < trainedCount then 1
  else if 2 ≤ untrainedCount then 1
  else if untrainedCount = 1 then 1/2
  else 0

/-- Step 2 of each hour: total coverage achieved over the day's required
skills at this hour (bah3.js lines 1469-1483; the `continue` on an empty
shift pool adds nothing). -/
def hourCoverage (simEmployees : List (Nat × Employee)) (requiredSkills : List Skill)
    (active : List Shift) : ℚ :=
  requiredSkills.foldl
    (fun acc skill =>
      let shiftsForSkill := active.filter (fun s => decide (s.skill = skill))
      if shiftsForSkill.isEmpty then acc
      else
        let trained := shiftsForSkill.filter
          (fun s => decide (skill ∈ knownOf simEmployees s.employeeId))
        let untrained := shiftsForSkill.filter
          (fun s => decide (skill ∉ knownOf simEmployees s.employeeId))
        acc + skillCoverage trained.length untrained.length)
    0

/-- Hourly pay of one employee given the post-increment weekly counter
(bah3.js lines 1493-1500): base salary within the weekly allotment, else
`Math.floor(salary * overtimeModifierPercent / 100)`, which on naturals
is truncating division. -/
def hourPay (org : Organization) (emp : Employee) (hoursThisWeek : Nat) : Nat :=
  if hoursThisWeek ≤ emp.maxHoursPerWeek then emp.salaryPerHour
  else emp.salaryPerHour * org.overtimeModifierPercent / 100

/-- Step 3 of each hour: payroll for every active employee (bah3.js
lines 1486-1501).  The counter is incremented first (`state.addHour`)
and the post-increment value decides base versus overtime. -/
def hourPayroll (org : Organization) (employees : List Employee) (dayId : Nat)
    (activeIds : List Nat) (states : List (Nat × EmployeeState)) :
    Nat × List (Nat × EmployeeState) :=
  activeIds.foldl
    (fun acc empId =>
      let employee := (findEmployee employees empId).getD default
      let state := (lookupA acc.2 empId).getD default
      let state1 := state.addHour dayId
      (acc.1 + hourPay org employee (state1.getHoursThisWeek dayId),
       setA acc.2 empId state1))
    (0, states)

/-- Best teaching rate per skill among the active trained workers
(bah3.js lines 1504-1519, the `teachersBySkill` map).  A key is only
written when the candidate's rate exceeds the current maximum, whose
absent default is 0 — so a trained worker with teaching rate 0 never
creates an entry. -/
def teachersBySkill (simEmployees : List (Nat × Employee)) (active : List Shift) :
    List (Skill × Nat) :=
  active.foldl
    (fun m s =>
      let emp := ((lookupA simEmployees s.employeeId).getD default)
      if s.skill ∈ emp.knownSkills then
        let currentMax := (lookupA m s.skill).getD 0
        if currentMax < emp.teachingRate then setA m s.skill emp.teachingRate else m
      else m)
    []

/-- Points gained by one learner shift (bah3.js lines 1525-1528):
`learningRate * (teacherRate > 0 ? teacherRate : 1)`, the teacher rate
being the `teachersBySkill` entry for the shift's skill (0 when absent). -/
def pointsGainedFor (employees : List Employee) (teachers : List (Skill × Nat))
    (ls : Shift) : Nat :=
  let learner := (findEmployee employees ls.employeeId).getD default
  let teacherRate := (lookupA teachers ls.skill).getD 0
  let multiplier := if 0 < teacherRate then teacherRate else 1
  learner.learningRate * multiplier

/-- Step 4 of each hour, learner half (bah3.js lines 1521-1539): each
active worker not knowing their shift's skill accumulates points; a
learner reaching 1000 points is staged for promotion at the start of the
next hour (`newSkillsLearned.set`, keyed by employee id). -/
def trainLearners (employees : List Employee) (simEmployees : List (Nat × Employee))
    (teachers : List (Skill × Nat)) (learners : List Shift)
    (states : List (Nat × EmployeeState)) (staged : List (Nat × Skill)) :
    List (Nat × EmployeeState) × List (Nat × Skill) :=
  learners.foldl
    (fun acc ls =>
      if ls.skill ∈ knownOf simEmployees ls.employeeId then acc
      else
        let state := (lookupA acc.1 ls.employeeId).getD default
        let state1 := state.addTrainingPoints ls.skill (pointsGainedFor employees teachers ls)
        let staged1 :=
          if 1000 ≤ state1.getTrainingPoints ls.skill then
            setA acc.2 ls.employeeId ls.skill
          else acc.2
        (setA acc.1 ls.employeeId state1, staged1))
    (states, staged)

/-- One iteration of the hourly loop of `calculateScore` (bah3.js
lines 1455-1540), returning the coverage achieved this hour, the payroll
billed this hour and the successor state. -/
def hourStep (org : Organization) (employees : List Employee) (day : Day)
    (shifts : List Shift) (st : SimState) (h : Nat) : ℚ × Nat × SimState :=
  let sim1 := applyStaged st.simEmployees st.staged
  let active := activeAt shifts h
  let activeIds := activeEmployeeIds active
  let cov := hourCoverage sim1 day.requiredSkills active
  let pays := hourPayroll org employees day.id activeIds st.states
  let teachers := teachersBySkill sim1 active
  let learners := active.filter (fun s => decide (s.skill ∉ knownOf sim1 s.employeeId))
  let trained := trainLearners employees sim1 teachers learners pays.2 []
  (cov, pays.1, { simEmployees := sim1, states := trained.1, staged := trained.2 })

/-- The hourly loop over a list of hours, accumulating achieved skill
hours and the day's payroll. -/
def runHours (org : Organization) (employees : List Employee) (day : Day)
    (shifts : List Shift) : List Nat → ℚ × Nat × SimState → ℚ × Nat × SimState
  | [], acc => acc
  | h :: rest, acc =>
      let step := hourStep org employees day shifts acc.2.2 h
      runHours org employees day shifts rest
        (acc.1 + step.1, acc.2.1 + step.2.1, step.2.2)

/-- Simulate one open day (the body of the day loop, bah3.js
lines 1449-1540): the staging map is created afresh for the day — a
promotion staged during the final hour is discarded with it. -/
def simulateDay (org : Organization) (employees : List Employee) (day : Day)
    (shifts : List Shift) (st : SimState) : ℚ × Nat × SimState :=
  runHours org employees day shifts
    (List.range' day.start (day.stop - day.start))
    (0, 0, { st with staged := [] })

/-- Day capacity (bah3.js line 1543). -/
def dayCapacity (day : Day) (achievedSkillHours : ℚ) : ℚ :=
  if 0 < day.totalRequiredSkillHours then
    achievedSkillHours / (day.totalRequiredSkillHours : ℚ)
  else 0

/-- Day profit (bah3.js lines 1544-1545):
`revenue * capacity^2 - payroll - fixedCost`. -/
def dayProfit (org : Organization) (day : Day) (achievedSkillHours : ℚ)
    (payroll : Nat) : ℚ :=
  (day.dailyRevenue : ℚ) * (dayCapacity day achievedSkillHours) ^ 2
    - (payroll : ℚ) - (org.fixedDailyCost : ℚ)

/-- The day loop of `calculateScore` (bah3.js lines 1440-1548): closed
days cost the fixed cost; open days are simulated hour by hour. -/
def runDays (org : Organization) (employees : List Employee)
    (sched : List (Nat × List Shift)) : List Day → SimState → ℚ → ℚ × SimState
  | [], st, total => (total, st)
  | day :: rest, st, total =>
      if day.isOpen then
        let shifts := (lookupA sched day.id).getD []
        let r := simulateDay org employees day shifts st
        runDays org employees sched rest r.2.2
          (total + dayProfit org day r.1 r.2.1)
      else
        runDays org employees sched rest st (total - (org.fixedDailyCost : ℚ))

/-- Total score of a schedule (`CodeBashSolver.calculateScore`, bah3.js
lines 1428-1552). -/
def calculateScore (org : Organization) (days : List Day)
    (employees : List Employee) (sched : List (Nat × List Shift)) : ℚ :=
  (runDays org employees sched days (initialSimState employees) 0).1

end Bah3

/-- Stable insertion of `x` into `l`: `x` is placed before the first
element it is strictly below, hence after every earlier tie. -/
def insertTail {α : Type} (lt : α → α → Bool) (x : α) : List α → List α
  | [] => [x]
  | y :: ys => if lt x y then x :: y :: ys else y :: insertTail lt x ys

/-- JS `Array.prototype.sort` with a consistent comparator: a stable sort
(guaranteed by ECMAScript).  Any stable sort computes the same list, so a
stable insertion sort is an exact model. -/
def sortJS {α : Type} (lt : α → α → Bool) (l : List α) : List α :=
  l.foldl (fun acc x => insertTail lt x acc) []

namespace Bah3

/-! ### The validation engine (`CodeBashSolver.validateSchedule`,
bah3.js lines 1332-1419).  Error messages are modelled structurally: one
constructor per `errors.push` site, carrying the data interpolated into
the message. -/

/-- Validation errors of `validateSchedule`, one constructor per push
site. -/
inductive VErr where
  | lineCount (expected got : Nat)
  | missingDay (dayId : Nat)
  | closedDayShifts (dayId : Nat)
  | unknownEmployee (dayId : Nat) (s : Shift)
  | vacation (dayId empId : Nat)
  | outsideWindow (dayId : Nat) (s : Shift)
  | closedShift (dayId : Nat) (s : Shift)
  | startGeStop (dayId : Nat) (s : Shift)
  | overlap (dayId empId : Nat) (s t : Shift)
deriving DecidableEq

/-- Per-shift checks of `validateSchedule` (bah3.js lines 1359-1408):
unknown employee skips the remaining checks; every shift is appended to
the per-employee overlap pool afterwards. -/
def validateDayShifts (employees : List Employee) (day : Day) :
    List Shift → List VErr → List (Nat × List Shift) → List VErr
  | [], errs, _ => errs
  | s :: rest, errs, empShifts =>
      match findEmployee employees s.employeeId with
      | none =>
          validateDayShifts employees day rest
            (errs ++ [VErr.unknownEmployee day.id s]) empShifts
      | some employee =>
          let e1 := if day.id ∈ employee.vacationDays
            then errs ++ [VErr.vacation day.id employee.id] else errs
          let e2 := if day.isOpen ∧ (s.start < day.start ∨ day.stop < s.stop)
            then e1 ++ [VErr.outsideWindow day.id s] else e1
          let e3 := if day.isOpen then e2 else e2 ++ [VErr.closedShift day.id s]
          let e4 := if s.stop ≤ s.start then e3 ++ [VErr.startGeStop day.id s] else e3
          let existing := (lookupA empShifts employee.id).getD []
          let e5 := existing.foldl
            (fun acc t =>
              if max s.start t.start < min s.stop t.stop
              then acc ++ [VErr.overlap day.id employee.id s t] else acc)
            e4
          validateDayShifts employees day rest e5
            (setA empShifts employee.id (existing ++ [s]))

/-- All errors collected by `validateSchedule` (bah3.js lines 1332-1409);
the schedule is valid iff this list is empty, and `run()` aborts before
scoring when it is not (bah3.js lines 1592-1596). -/
def validateScheduleErrors (days : List Day) (employees : List Employee)
    (sched : List (Nat × List Shift)) : List VErr :=
  let init : List VErr :=
    if sched.length ≠ days.length then [VErr.lineCount days.length sched.length] else []
  days.foldl
    (fun errs day =>
      match lookupA sched day.id with
      | none => errs ++ [VErr.missingDay day.id]
      | some shifts =>
          let e1 := if ¬ day.isOpen ∧ shifts ≠ []
            then errs ++ [VErr.closedDayShifts day.id] else errs
          validateDayShifts employees day shifts e1 [])
    init

/-- Boolean verdict of `validateSchedule`. -/
def validateSchedule (days : List Day) (employees : List Employee)
    (sched : List (Nat × List Shift)) : Bool :=
  (validateScheduleErrors days employees sched).isEmpty

/-! ### The greedy scheduler (`CodeBashSolver.generateSchedule`,
bah3.js lines 1233-1323). -/

/-- Candidate pool of a day: employees not on vacation, sorted by salary
ascending and stable (bah3.js lines 1249-1256). -/
def sortedAvailable (employees : List Employee) (day : Day) : List Employee :=
  sortJS (fun a b => a.salaryPerHour < b.salaryPerHour)
    (employees.filter (fun e => decide (day.id ∉ e.vacationDays)))

/-- Covering one required skill (bah3.js lines 1260-1316): one cheap
skilled employee, else the first two unassigned, else one, else nothing.
The accumulator carries the day's shifts and the assigned-id set. -/
def assignSkill (day : Day) (avail : List Employee)
    (acc : List Shift × List Nat) (skill : Skill) : List Shift × List Nat :=
  match avail.find? (fun e => decide (e.id ∉ acc.2) && decide (skill ∈ e.knownSkills)) with
  | some emp =>
      (acc.1 ++ [⟨emp.id, day.start, day.stop, skill⟩], acc.2 ++ [emp.id])
  | none =>
      match avail.filter (fun e => decide (e.id ∉ acc.2)) with
      | e1 :: e2 :: _ =>
          (acc.1 ++ [⟨e1.id, day.start, day.stop, skill⟩, ⟨e2.id, day.start, day.stop, skill⟩],
           acc.2 ++ [e1.id, e2.id])
      | [e1] => (acc.1 ++ [⟨e1.id, day.start, day.stop, skill⟩], acc.2 ++ [e1.id])
      | [] => acc

/-- Shifts generated for one day (bah3.js lines 1241-1319): closed days
get an empty list. -/
def generateDay (employees : List Employee) (day : Day) : List Shift :=
  if day.isOpen then
    (day.requiredSkills.foldl (assignSkill day (sortedAvailable employees day)) ([], [])).1
  else []

/-- The full greedy schedule (`generateSchedule`, bah3.js
lines 1233-1323). -/
def generateSchedule (days : List Day) (employees : List Employee) :
    List (Nat × List Shift) :=
  days.map (fun day => (day.id, generateDay employees day))

end Bah3

namespace Bah3

/-! ### Shift merging (`mergeShifts` of the first bundled program in
bah3.js, lines 179-208).  The group key is the JS template string
`employeeId + "-" + skill`; reading a group back destructures
`key.split('-')` into its first two components, so the decimal digits of
the employee id and the character-level split of the key are modelled
exactly. -/

/-- Decimal digit character (the characters `${n}` produces). -/
def digitChar (d : Nat) : Char :=
  match d with
  | 0 => '0' | 1 => '1' | 2 => '2' | 3 => '3' | 4 => '4'
  | 5 => '5' | 6 => '6' | 7 => '7' | 8 => '8' | _ => '9'

/-- Decimal rendering of a natural number, as produced by the JS template
interpolation of a non-negative integer. -/
def natChars (n : Nat) : List Char :=
  if _h : n < 10 then [digitChar n]
  else natChars (n / 10) ++ [digitChar (n % 10)]
decreasing_by exact Nat.div_lt_self (by omega) (by omega)

/-- Numeric value of a digit character (`Number` on a digit string). -/
def charVal (c : Char) : Nat := c.toNat - 48

/-- JS `Number(...)` on a string of decimal digits. -/
def parseNat (cs : List Char) : Nat :=
  cs.foldl (fun acc c => acc * 10 + charVal c) 0

/-- JS `String.prototype.split` with a one-character separator. -/
def splitOnChar (c : Char) : List Char → List (List Char)
  | [] => [[]]
  | x :: rest =>
      if x = c then [] :: splitOnChar c rest
      else
        match splitOnChar c rest with
        | [] => [[x]]
        | y :: ys => (x :: y) :: ys

/-- Group key of a shift (bah3.js line 183:
`` `${s.employeeId}-${s.skill}` ``). -/
def shiftKey (s : Shift) : List Char := natChars s.employeeId ++ '-' :: s.skill

/-- Append a start hour to the group of `key`, creating the group at the
end on first sight (JS `Map` insertion semantics, bah3.js lines 182-186). -/
def addToGroups : List (List Char × List Nat) → List Char → Nat →
    List (List Char × List Nat)
  | [], key, st => [(key, [st])]
  | (k, sts) :: rest, key, st =>
      if k = key then (k, sts ++ [st]) :: rest
      else (k, sts) :: addToGroups rest key st

/-- The grouping pass of `mergeShifts` (bah3.js lines 181-186). -/
def buildGroups : List Shift → List (List Char × List Nat) →
    List (List Char × List Nat)
  | [], gs => gs
  | s :: rest, gs => buildGroups rest (addToGroups gs (shiftKey s) s.start)

/-- The merging loop over one group's sorted start hours (bah3.js
lines 193-205): contiguous starts extend the current block, a gap closes
it. -/
def mergeStarts (employeeId : Nat) (skill : Skill) :
    List Nat → Nat → Nat → List Shift
  | [], curStart, curEnd => [⟨employeeId, curStart, curEnd, skill⟩]
  | st :: rest, curStart, curEnd =>
      if st = curEnd then mergeStarts employeeId skill rest curStart (st + 1)
      else ⟨employeeId, curStart, curEnd, skill⟩ :: mergeStarts employeeId skill rest st (st + 1)

/-- Emit the merged shifts of one group (bah3.js lines 189-205): the key
is split on `'-'` and only its first two components are kept
(`const [employeeId, skill] = key.split('-')`), so a skill containing a
hyphen is truncated at that hyphen.  A group is never empty in the
source; the empty case is unreachable. -/
def mergeGroup (key : List Char) (starts : List Nat) : List Shift :=
  let parts := splitOnChar '-' key
  let employeeId := parseNat (parts.headD [])
  let skill := (parts.drop 1).headD []
  match sortJS (fun a b => a < b) starts with
  | [] => []
  | st :: rest => mergeStarts employeeId skill rest st (st + 1)

/-- Merging contiguous one-hour shifts (`mergeShifts`, bah3.js
lines 179-208). -/
def mergeShifts (shifts : List Shift) : List Shift :=
  (buildGroups shifts []).foldl (fun acc g => acc ++ mergeGroup g.1 g.2) []

/-- The set of staffed (employee, hour, skill) slots of a shift list —
the quantity merging is claimed to preserve. -/
def coversSlot (l : List Shift) (e h : Nat) (sk : Skill) : Prop :=
  ∃ s ∈ l, s.employeeId = e ∧ s.skill = sk ∧ s.start ≤ h ∧ h < s.stop

instance (l : List Shift) (e h : Nat) (sk : Skill) :
    Decidable (coversSlot l e h sk) := by
  unfold coversSlot; infer_instance

end Bah3

/-- Absence of overlapping shifts of one employee within a day: any two
distinct shifts of the same employee fail the interval overlap test
`max(s1,s2) < min(e1,e2)`. -/
def noOverlapPerEmployee (shifts : List Bah3.Shift) : Prop :=
  List.Pairwise
    (fun s t => s.employeeId = t.employeeId → min s.stop t.stop ≤ max s.start t.start)
    shifts

instance (shifts : List Bah3.Shift) : Decidable (noOverlapPerEmployee shifts) := by
  unfold noOverlapPerEmployee; infer_instance

namespace Sonnet

/-! ### The scheduler of `src/sonnet.js` (`advancedSchedule`,
lines 55-161).  The local `skillAssignments` map is written but never
read and is omitted.  Shift records coincide with `Bah3.Shift`. -/

/-- Day record of sonnet.js (`parseInput`, lines 17-25). -/
structure SDay where
  id : Nat
  closed : Bool
  start : Nat
  stop : Nat
  revenue : Nat
  skills : List Skill
deriving DecidableEq

/-- Employee record of sonnet.js (`parseInput`, lines 30-49). -/
structure SEmployee where
  id : Nat
  maxHoursPerWeek : Nat
  salaryPerHour : Nat
  learningRate : Nat
  teachingRate : Nat
  skills : List Skill
  vacation : List Nat
deriving DecidableEq

instance : Inhabited SEmployee := ⟨⟨0, 0, 0, 0, 0, [], []⟩⟩

/-- Per-employee training tracker (`employeeSkills`, sonnet.js
lines 60-68): the trained set and the progress points per skill. -/
structure SkillTracker where
  trained : List Skill
  progress : List (Skill × Nat)
deriving DecidableEq

instance : Inhabited SkillTracker := ⟨⟨[], []⟩⟩

/-- Candidate entry pushed on sonnet.js line 102. -/
structure Candidate where
  emp : SEmployee
  score : Int
  cost : Int
  isTrained : Bool
  overtimeHours : Nat
deriving DecidableEq

/-- Candidate list for one skill (sonnet.js lines 82-103): every
non-vacationing employee, scored by trained status, projected cost and
overtime (the cost can involve a negative base-hours term in the source's
number arithmetic, hence `Int`). -/
def candidatesFor (overtimeModifier : Nat) (employees : List SEmployee)
    (weekly : List ((Nat × Nat) × Nat)) (empSkills : List (Nat × SkillTracker))
    (day : SDay) (skill : Skill) : List Candidate :=
  (employees.filter (fun e => decide (day.id ∉ e.vacation))).map
    (fun emp =>
      let weekStart := day.id / 7 * 7
      let shiftHours := day.stop - day.start
      let hoursThisWeek := (lookupA weekly (weekStart, emp.id)).getD 0
      let overtimeHours := hoursThisWeek + shiftHours - emp.maxHoursPerWeek
      let baseHours : Int := (shiftHours : Int) - (overtimeHours : Int)
      let cost : Int := baseHours * emp.salaryPerHour
        + (overtimeHours : Int) * (emp.salaryPerHour * overtimeModifier / 100 : Nat)
      let isTrained := decide (skill ∈ ((lookupA empSkills emp.id).getD default).trained)
      { emp := emp
        score := (if isTrained then (1000000 : Int) else 100) - cost
          - (overtimeHours : Int) * 5000
        cost := cost
        isTrained := isTrained
        overtimeHours := overtimeHours })

/-- The per-skill assignment loop of one day (sonnet.js lines 81-127):
sort candidates by score descending (stable) and book the best for the
full open window, charging the week counter.  Nothing excludes an
employee already booked for another skill of the same day. -/
def assignDaySkills (overtimeModifier : Nat) (employees : List SEmployee)
    (day : SDay) (empSkills : List (Nat × SkillTracker)) :
    List Skill → List Bah3.Shift → List ((Nat × Nat) × Nat) →
    List Bah3.Shift × List ((Nat × Nat) × Nat)
  | [], shifts, weekly => (shifts, weekly)
  | skill :: rest, shifts, weekly =>
      let cands := sortJS (fun a b => decide (b.score < a.score))
        (candidatesFor overtimeModifier employees weekly empSkills day skill)
      match cands with
      | [] => assignDaySkills overtimeModifier employees day empSkills rest shifts weekly
      | best :: _ =>
          let weekStart := day.id / 7 * 7
          let shiftHours := day.stop - day.start
          let key := (weekStart, best.emp.id)
          let weekly1 := setA weekly key ((lookupA weekly key).getD 0 + shiftHours)
          assignDaySkills overtimeModifier employees day empSkills rest
            (shifts ++ [⟨best.emp.id, day.start, day.stop, skill⟩]) weekly1

/-- Best teaching rate for one learner shift (sonnet.js lines 136-145):
scan every shift of the day for a differently-named co-worker on the same
skill who is currently trained, starting from 1. -/
def teacherRateFor (employees : List SEmployee) (empSkills : List (Nat × SkillTracker))
    (allShifts : List Bah3.Shift) (shift : Bah3.Shift) : Nat :=
  allShifts.foldl
    (fun rate other =>
      if other.skill = shift.skill ∧ other.employeeId ≠ shift.employeeId ∧
          shift.skill ∈ ((lookupA empSkills other.employeeId).getD default).trained then
        max rate (((employees.find? (fun e => e.id == other.employeeId)).getD default).teachingRate)
      else rate)
    1

/-- The training pass over a day's booked shifts (sonnet.js
lines 130-155), threading the live `employeeSkills` map through the
loop; a learner reaching 1000 progress is marked trained immediately. -/
def processTraining (employees : List SEmployee) (day : SDay)
    (allShifts : List Bah3.Shift) :
    List Bah3.Shift → List (Nat × SkillTracker) → List (Nat × SkillTracker)
  | [], empSkills => empSkills
  | shift :: rest, empSkills =>
      let tracker := (lookupA empSkills shift.employeeId).getD default
      if shift.skill ∈ tracker.trained then
        processTraining employees day allShifts rest empSkills
      else
        let emp := (employees.find? (fun e => e.id == shift.employeeId)).getD default
        let shiftHours := day.stop - day.start
        let gain := shiftHours * emp.learningRate
          * teacherRateFor employees empSkills allShifts shift
        let progress1 := (lookupA tracker.progress shift.skill).getD 0 + gain
        let tracker1 :=
          { trained := if 1000 ≤ progress1 then tracker.trained ++ [shift.skill]
              else tracker.trained
            progress := setA tracker.progress shift.skill progress1 }
        processTraining employees day allShifts rest
          (setA empSkills shift.employeeId tracker1)

/-- The day loop of `advancedSchedule` (sonnet.js lines 70-158): closed
days contribute an empty shift list; open days get the per-skill
assignment pass followed by the training pass. -/
def advancedSchedule (overtimeModifier : Nat) (days : List SDay)
    (employees : List SEmployee) : List (Nat × List Bah3.Shift) :=
  (days.foldl
    (fun acc day =>
      if day.closed then (acc.1 ++ [(day.id, [])], acc.2.1, acc.2.2)
      else
        let r := assignDaySkills overtimeModifier employees day acc.2.2
          day.skills [] acc.2.1
        let empSkills1 := processTraining employees day r.1 r.1 acc.2.2
        (acc.1 ++ [(day.id, r.1)], r.2, empSkills1))
    (([] : List (Nat × List Bah3.Shift)),
     ([] : List ((Nat × Nat) × Nat)),
     employees.map (fun e => (e.id, ({ trained := e.skills, progress := [] } : SkillTracker))))).1

end Sonnet

namespace RepValidator

/-! ### The reference validator/scorer of `src/rep_validator.js`
(`class PlanningValidator`).  Error messages are modelled structurally,
one constructor per `_logError` call site, carrying exactly the data
interpolated into the message text (so structural equality coincides
with the source's message-string equality used for deduplication).
Parse-stage checks that shape the schedule (closed-day shifts zeroed,
malformed tokens dropped, `parseOutput` lines 200-243) are performed
day-wise before scoring; this can interleave parse-stage and scoring
errors differently from the source, which only permutes the error list
and changes no membership, no validity verdict and no score. -/

/-- Organization record (rep_validator.js lines 9-14). -/
structure ROrg where
  overtimeMod : Nat
  fixedCost : Nat
deriving DecidableEq

/-- Day record (rep_validator.js lines 19-46). -/
structure RDay where
  id : Nat
  isClosed : Bool
  start : Nat
  stop : Nat
  revenue : Nat
  requiredSkills : List Skill
deriving DecidableEq

/-- Day duration (rep_validator.js line 34). -/
def RDay.duration (d : RDay) : Nat := d.stop - d.start

/-- Capacity denominator (`totalSkillHours`, rep_validator.js
lines 40-45). -/
def RDay.totalSkillHours (d : RDay) : Nat :=
  if d.isClosed then 0 else d.duration * d.requiredSkills.length

/-- Employee record (rep_validator.js lines 51-68). -/
structure REmployee where
  id : Nat
  maxHoursPerWeek : Nat
  salaryPerHour : Nat
  learningRate : Nat
  teachingRate : Nat
  initialSkills : List Skill
  vacationDays : List Nat
deriving DecidableEq

instance : Inhabited REmployee := ⟨⟨0, 0, 0, 0, 0, [], []⟩⟩

/-- Shift record (rep_validator.js lines 74-86). -/
structure RShift where
  employeeId : Nat
  start : Nat
  stop : Nat
  skill : Skill
deriving DecidableEq

/-- Shift duration (rep_validator.js line 81). -/
def RShift.duration (s : RShift) : Nat := s.stop - s.start

/-- Validation errors, one constructor per `_logError` site. -/
inductive RErr where
  | closedDayShifts (dayId : Nat)
  | malformedShift (dayId : Nat) (s : RShift)
  | unknownEmployee (dayId empId : Nat)
  | vacation (dayId empId : Nat)
  | outsideWindow (dayId : Nat) (empId start stop : Nat)
  | overlap (dayId empId : Nat)
deriving DecidableEq

/-- Record an error (`_logError`, rep_validator.js lines 119-124):
deduplicated by message, appended otherwise. -/
def logError (errs : List RErr) (e : RErr) : List RErr :=
  if e ∈ errs then errs else errs ++ [e]

/-- Training points of an employee for a skill. -/
def pointsOf (skillPoints : List (Nat × List (Skill × Nat))) (empId : Nat)
    (skill : Skill) : Nat :=
  (lookupA ((lookupA skillPoints empId).getD []) skill).getD 0

/-- Trained test (`isTrained`, rep_validator.js lines 253-257):
at least 1000 points. -/
def isTrained (skillPoints : List (Nat × List (Skill × Nat))) (empId : Nat)
    (skill : Skill) : Bool :=
  1000 ≤ pointsOf skillPoints empId skill

/-- Employee directory lookup `this.employees[empId]`. -/
def findREmployee (employees : List REmployee) (empId : Nat) : Option REmployee :=
  employees.find? (fun e => e.id == empId)

/-- Payroll of one shift (`calculatePayroll`, rep_validator.js
lines 262-284): hours up to the weekly cap at base salary, the rest at
`Math.floor(salary * overtimeMod / 100)`; the weekly counter always
advances by the full duration.  Returns the cost and the updated weekly
map. -/
def calculatePayroll (org : ROrg) (emp : REmployee) (weekly : List (Nat × Nat))
    (dur : Nat) : Nat × List (Nat × Nat) :=
  let used := (lookupA weekly emp.id).getD 0
  let baseHours := min dur (emp.maxHoursPerWeek - used)
  let overtimeHours := dur - baseHours
  let overtimeRate := emp.salaryPerHour * org.overtimeMod / 100
  (baseHours * emp.salaryPerHour + overtimeHours * overtimeRate,
   setA weekly emp.id (used + dur))

/-- One increment of the hourly coverage map (rep_validator.js
lines 341-350): the (hour, skill) cell counts trained and untrained
active workers. -/
def bumpCoverage (cm : List (Nat × List (Skill × (Nat × Nat)))) (h : Nat)
    (skill : Skill) (trainedFlag : Bool) : List (Nat × List (Skill × (Nat × Nat))) :=
  let hourMap := (lookupA cm h).getD []
  let counts := (lookupA hourMap skill).getD (0, 0)
  let counts1 := if trainedFlag then (counts.1 + 1, counts.2) else (counts.1, counts.2 + 1)
  setA cm h (setA hourMap skill counts1)

/-- State threaded through the per-shift loop of `calculateCapacity`
(rep_validator.js lines 296-351). -/
structure ShiftLoopState where
  errs : List RErr
  empShifts : List (Nat × List (Nat × Nat))
  payroll : Nat
  weekly : List (Nat × Nat)
  coverage : List (Nat × List (Skill × (Nat × Nat)))
deriving DecidableEq

/-- Per-shift pass of `calculateCapacity` (rep_validator.js
lines 301-351): an unknown employee is logged and the shift is skipped
entirely; otherwise vacation, store-hours and overlap checks run, the
shift is added to the overlap pool only when it overlaps none of the
shifts already accepted there, payroll is charged and the coverage map
is bumped for each hour of the shift. -/
def processShift (org : ROrg) (employees : List REmployee)
    (skillPoints : List (Nat × List (Skill × Nat))) (day : RDay)
    (st : ShiftLoopState) (s : RShift) : ShiftLoopState :=
  match findREmployee employees s.employeeId with
  | none => { st with errs := logError st.errs (RErr.unknownEmployee day.id s.employeeId) }
  | some emp =>
      let e1 := if day.id ∈ emp.vacationDays
        then logError st.errs (RErr.vacation day.id s.employeeId) else st.errs
      let e2 := if s.start < day.start ∨ day.stop < s.stop
        then logError e1 (RErr.outsideWindow day.id s.employeeId s.start s.stop) else e1
      let existing := (lookupA st.empShifts s.employeeId).getD []
      let hasOverlap := existing.any (fun t => decide (max s.start t.1 < min s.stop t.2))
      let e3 := if hasOverlap then logError e2 (RErr.overlap day.id s.employeeId) else e2
      let empShifts1 := if hasOverlap then st.empShifts
        else setA st.empShifts s.employeeId (existing ++ [(s.start, s.stop)])
      let pr := calculatePayroll org emp st.weekly s.duration
      let trainedFlag := isTrained skillPoints s.employeeId s.skill
      let coverage1 := (List.range' s.start s.duration).foldl
        (fun m h => bumpCoverage m h s.skill trainedFlag) st.coverage
      { errs := e3, empShifts := empShifts1, payroll := st.payroll + pr.1,
        weekly := pr.2, coverage := coverage1 }

/-- Best teaching rate of one (hour, skill) cell (rep_validator.js
lines 369-377): the maximum teaching rate over trained workers active on
the skill at the hour, starting from 0. -/
def cellMaxRate (employees : List REmployee)
    (skillPoints : List (Nat × List (Skill × Nat))) (shifts : List RShift)
    (skill : Skill) (h : Nat) : Nat :=
  shifts.foldl
    (fun rate s =>
      if s.skill = skill ∧ s.start ≤ h ∧ h < s.stop ∧
          isTrained skillPoints s.employeeId s.skill then
        max rate ((findREmployee employees s.employeeId).getD default).teachingRate
      else rate)
    0

/-- The skill-hour summation of `calculateCapacity` (rep_validator.js
lines 353-387), accumulating achieved coverage and the hourly-teachers
map. -/
def capacityLoop (employees : List REmployee)
    (skillPoints : List (Nat × List (Skill × Nat))) (day : RDay)
    (shifts : List RShift) (cm : List (Nat × List (Skill × (Nat × Nat)))) :
    ℚ × List (Nat × List (Skill × Nat)) :=
  day.requiredSkills.foldl
    (fun acc skill =>
      (List.range' day.start day.duration).foldl
        (fun acc2 h =>
          let counts := (lookupA ((lookupA cm h).getD []) skill).getD (0, 0)
          if 0 < counts.1 then
            let maxRate := cellMaxRate employees skillPoints shifts skill h
            (acc2.1 + 1,
             setA acc2.2 h (setA ((lookupA acc2.2 h).getD []) skill maxRate))
          else if counts.2 = 1 then (acc2.1 + 1/2, acc2.2)
          else if 1 < counts.2 then (acc2.1 + 1, acc2.2)
          else acc2)
        acc)
    ((0 : ℚ), [])

/-- Hour list worked per employee per skill (`updateTraining` first
half, rep_validator.js lines 401-412). -/
def empSkillHours (shifts : List RShift) : List (Nat × List (Skill × List Nat)) :=
  shifts.foldl
    (fun m s =>
      let empMap := (lookupA m s.employeeId).getD []
      let hours := (lookupA empMap s.skill).getD []
      setA m s.employeeId
        (setA empMap s.skill (hours ++ List.range' s.start s.duration)))
    []

/-- Apply training gains (`updateTraining` second half, rep_validator.js
lines 414-443): already-trained pairs are skipped; each worked hour
yields `learningRate * teacherRate` when the cell's teacher rate is
positive and plain `learningRate` otherwise. -/
def updateTraining (employees : List REmployee) (teachers : List (Nat × List (Skill × Nat)))
    (skillPoints : List (Nat × List (Skill × Nat))) (shifts : List RShift) :
    List (Nat × List (Skill × Nat)) :=
  (empSkillHours shifts).foldl
    (fun sp entry =>
      let emp := (findREmployee employees entry.1).getD default
      entry.2.foldl
        (fun sp2 skillHours =>
          if isTrained sp2 entry.1 skillHours.1 then sp2
          else
            let totalGain := skillHours.2.foldl
              (fun g h =>
                let rate := (lookupA ((lookupA teachers h).getD []) skillHours.1).getD 0
                g + (if 0 < rate then emp.learningRate * rate else emp.learningRate))
              0
            let empMap := (lookupA sp2 entry.1).getD []
            setA sp2 entry.1
              (setA empMap skillHours.1
                ((lookupA empMap skillHours.1).getD 0 + totalGain)))
        sp)
    skillPoints

/-- Scoring state across days (`PlanningValidator` fields, rep_validator.js
lines 102-113). -/
structure RepState where
  skillPoints : List (Nat × List (Skill × Nat))
  weekly : List (Nat × Nat)
  errs : List RErr
  totalProfit : ℚ
  totalPayroll : Nat
deriving DecidableEq

/-- Initial state after input parsing: 1000 points pre-seeded for each
initial skill (rep_validator.js lines 170-175). -/
def initialRepState (employees : List REmployee) : RepState :=
  { skillPoints := employees.map (fun e => (e.id, e.initialSkills.map (fun sk => (sk, 1000))))
    weekly := []
    errs := []
    totalProfit := 0
    totalPayroll := 0 }

/-- Per-day diagnostic record (the quantities computed on
rep_validator.js lines 469-496). -/
structure RepDayRecord where
  dayId : Nat
  capacity : ℚ
  payroll : Nat
  profit : ℚ
deriving DecidableEq

/-- Parse-stage shaping of one day's raw shifts (`parseOutput`,
rep_validator.js lines 217-243): shifts on a closed day are logged once
and dropped wholesale; a token whose duration is not positive throws in
the `Shift` constructor and is logged and dropped. -/
def prepareDay (errs : List RErr) (day : RDay) (raw : List RShift) :
    List RErr × List RShift :=
  if day.isClosed ∧ raw ≠ [] then (logError errs (RErr.closedDayShifts day.id), [])
  else
    raw.foldl
      (fun acc s =>
        if s.stop ≤ s.start then (logError acc.1 (RErr.malformedShift day.id s), acc.2)
        else (acc.1, acc.2 ++ [s]))
      (errs, [])

/-- Process one day of `validateAndScore` (rep_validator.js
lines 459-497): the weekly map is cleared when `dayId % 7 === 0`, a
closed day costs the fixed cost, an open day runs the checks, the
capacity summation, the profit formula and the training update. -/
def processDay (org : ROrg) (employees : List REmployee) (st : RepState)
    (day : RDay) (raw : List RShift) : RepState × RepDayRecord :=
  let prep := prepareDay st.errs day raw
  let weekly0 := if day.id % 7 = 0 then [] else st.weekly
  if day.isClosed then
    ({ st with
        errs := prep.1
        weekly := weekly0
        totalProfit := st.totalProfit - (org.fixedCost : ℚ) },
     ⟨day.id, 0, 0, -(org.fixedCost : ℚ)⟩)
  else
    let init : ShiftLoopState := ⟨prep.1, [], 0, weekly0, []⟩
    let st1 := prep.2.foldl (processShift org employees st.skillPoints day) init
    let cap := capacityLoop employees st.skillPoints day prep.2 st1.coverage
    let totalNeed := day.totalSkillHours
    let capacityD : ℚ := if 0 < totalNeed then cap.1 / (totalNeed : ℚ) else 0
    let profitD : ℚ := (day.revenue : ℚ) * capacityD ^ 2 - (st1.payroll : ℚ)
      - (org.fixedCost : ℚ)
    let points1 := updateTraining employees cap.2 st.skillPoints prep.2
    ({ skillPoints := points1
       weekly := st1.weekly
       errs := st1.errs
       totalProfit := st.totalProfit + profitD
       totalPayroll := st.totalPayroll + st1.payroll },
     ⟨day.id, capacityD, st1.payroll, profitD⟩)

/-- The full day loop of `validateAndScore` over the (id-sorted) day
list, collecting per-day records. -/
def runRep (org : ROrg) (employees : List REmployee) :
    List (RDay × List RShift) → RepState → RepState × List RepDayRecord
  | [], st => (st, [])
  | (day, raw) :: rest, st =>
      let r := processDay org employees st day raw
      let next := runRep org employees rest r.1
      (next.1, r.2 :: next.2)

/-- Final verdict and score of `validateAndScore` (rep_validator.js
lines 505-521): a valid run reports the accumulated profit, an invalid
one reports score 0. -/
def reportedScore (org : ROrg) (employees : List REmployee)
    (sched : List (RDay × List RShift)) : ℚ :=
  let final := (runRep org employees sched (initialRepState employees)).1
  if final.errs.isEmpty then final.totalProfit else 0

end RepValidator

namespace Bah3

/-- Maximum teaching rate over the trained workers active on a skill,
as a plain fold (the quantity the `teachersBySkill` map realises). -/
def maxTeachingRate (simEmployees : List (Nat × Employee)) (active : List Shift)
    (skill : Skill) : Nat :=
  (active.filter
      (fun s => decide (s.skill = skill ∧ skill ∈ knownOf simEmployees s.employeeId))).foldl
    (fun r s => max r (((lookupA simEmployees s.employeeId).getD default).teachingRate))
    0

/-- Modelled from the spec (section 4.2 step 4, the training claim):
`teacherBonus = max(teachingRate of every trained worker simultaneously
active on skill s at hour h)`, defaulting to 1 only when no trained
worker is present.  This is the claim's formula, to be compared with the
source's `pointsGainedFor`. -/
def specTeacherBonus (simEmployees : List (Nat × Employee)) (active : List Shift)
    (skill : Skill) : Nat :=
  let teachers := active.filter
    (fun s => decide (s.skill = skill ∧ skill ∈ knownOf simEmployees s.employeeId))
  if teachers.isEmpty then 1 else maxTeachingRate simEmployees active skill

end Bah3


/-! ### Concrete instances used by the witnesses and counterexamples. -/

namespace ExC6

/-- Scenario A organization: overtime 50 %, fixed daily cost 100. -/
def org : Bah3.Organization := ⟨50, 100⟩

/-- Scenario A day: open 8-10, revenue 1000, one skill. -/
def day : Bah3.Day := ⟨1, true, 8, 10, 1000, ["Register".data]⟩

/-- Scenario A employee: pre-trained in the skill, salary 10. -/
def emp : Bah3.Employee := ⟨1, 40, 10, 1, 1, ["Register".data], []⟩

/-- Scenario A schedule: the single full-window shift. -/
def shift : Bah3.Shift := ⟨1, 8, 10, "Register".data⟩

end ExC6

namespace ExC2

/-- A worker with learning rate 1000: one worked hour crosses the
training threshold. -/
def emp : Bah3.Employee := ⟨1, 40, 10, 1000, 1, [], []⟩

/-- Day 1, open for the single hour 8-9. -/
def day1 : Bah3.Day := ⟨1, true, 8, 9, 1000, ["Register".data]⟩

/-- Day 2, open for the single hour 8-9. -/
def day2 : Bah3.Day := ⟨2, true, 8, 9, 1000, ["Register".data]⟩

/-- The worker works the single open hour of each day. -/
def shift1 : Bah3.Shift := ⟨1, 8, 9, "Register".data⟩

/-- Simulator state after day 1: 1000 points banked, promotion staged
during the final hour and discarded with the day. -/
def afterDay1 : Bah3.SimState :=
  (Bah3.simulateDay org [emp] day1 [shift1] (Bah3.initialSimState [emp])).2.2
where org : Bah3.Organization := ⟨50, 100⟩

end ExC2

namespace ExC5

/-- A trained teacher whose teaching rate is 0. -/
def teacher : Bah3.Employee := ⟨1, 40, 10, 1, 0, ["Register".data], []⟩

/-- An untrained learner with learning rate 5. -/
def learner : Bah3.Employee := ⟨2, 40, 10, 5, 1, [], []⟩

/-- Simulation clones at the hour under scrutiny. -/
def sim : List (Nat × Bah3.Employee) := [(1, teacher), (2, learner)]

/-- Both workers active on the skill for the hour. -/
def active : List Bah3.Shift := [⟨1, 8, 9, "Register".data⟩, ⟨2, 8, 9, "Register".data⟩]

end ExC5

namespace ExC7

/-- One open day with two required skills. -/
def day : Sonnet.SDay := ⟨1, false, 8, 10, 1000, ["A".data, "B".data]⟩

/-- A single employee, not on vacation, trained in the first skill. -/
def emp : Sonnet.SEmployee := ⟨1, 40, 10, 1, 1, ["A".data], []⟩

end ExC7

namespace ExC8

/-- One open day requiring skill `A`. -/
def day : Bah3.Day := ⟨1, true, 8, 10, 1000, ["A".data]⟩

/-- The only employee of the model, knowing skill `A`. -/
def emp : Bah3.Employee := ⟨1, 40, 10, 1, 1, ["A".data], []⟩

/-- A schedule whose only shift references the skill `Z`, absent from
the day's requirements and from every employee's skill set. -/
def sched : List (Nat × List Bah3.Shift) := [(1, [⟨1, 8, 10, "Z".data⟩])]

end ExC8

namespace ExC9

/-- An open day 0-10 requiring one skill. -/
def day : RepValidator.RDay := ⟨1, false, 0, 10, 0, ["A".data]⟩

/-- The employee holding the three shifts. -/
def emp : RepValidator.REmployee := ⟨7, 40, 10, 1, 1, ["A".data], []⟩

/-- Three shifts of one employee: the second overlaps the first, the
third overlaps the second (but not the first). -/
def shifts : List RepValidator.RShift :=
  [⟨7, 1, 3, "A".data⟩, ⟨7, 2, 5, "A".data⟩, ⟨7, 4, 6, "A".data⟩]

end ExC9

namespace ExC3

/-- Weekly cap of a single hour, salary 10, overtime 50 % (rate 5). -/
def emp : RepValidator.REmployee := ⟨1, 1, 10, 1, 1, ["A".data], []⟩

/-- Open single-hour day with the given id. -/
def day (i : Nat) : RepValidator.RDay := ⟨i, false, 8, 9, 0, ["A".data]⟩

/-- The employee works one hour on day 6 and one hour on day 7. -/
def sched : List (RepValidator.RDay × List RepValidator.RShift) :=
  [(day 6, [⟨1, 8, 9, "A".data⟩]), (day 7, [⟨1, 8, 9, "A".data⟩])]

/-- The per-day records of the rep validator on this run. -/
def records : List RepValidator.RepDayRecord :=
  (RepValidator.runRep ⟨50, 0⟩ [emp] sched (RepValidator.initialRepState [emp])).2

end ExC3

/-! ## Theorems

General association-list lemmas, then the claims C1-C10 in order, each
with its witness or counterexample. -/

theorem lookupA_setA_self {α β : Type} [DecidableEq α]
    (l : List (α × β)) (k : α) (v : β) : lookupA (setA l k v) k = some v := by
  induction l with
  | nil => simp [setA, lookupA]
  | cons p rest ih =>
      by_cases h : p.1 = k
      · simp [setA, h, lookupA]
      · simp [setA, h, lookupA, ih]

theorem lookupA_setA_ne {α β : Type} [DecidableEq α]
    (l : List (α × β)) (k k' : α) (v : β) (h : k ≠ k') :
    lookupA (setA l k v) k' = lookupA l k' := by
  induction l with
  | nil => simp [setA, lookupA, h]
  | cons p rest ih =>
      by_cases hp : p.1 = k
      · simp [setA, hp, lookupA]
        subst hp
        simp [lookupA, h]
      · simp [setA, hp, lookupA, ih]

/-- Folding an accumulate-only step is summing the per-element
contributions. -/
theorem foldl_add_eq_sum {α : Type} (g : α → ℚ) (f : ℚ → α → ℚ)
    (hf : ∀ a x, f a x = a + g x) :
    ∀ (l : List α) (acc : ℚ), l.foldl f acc = acc + (l.map g).sum := by
  intro l
  induction l with
  | nil => intro acc; simp
  | cons x rest ih =>
      intro acc
      rw [List.foldl_cons, ih, hf, List.map_cons, List.sum_cons]
      ring

namespace Bah3

/-- C1.  The simulator's coverage of every (hour, skill) cell is the
`skillCoverage` of the trained/untrained counts of the workers active on
the skill (the hourly total is their sum over the day's required
skills), and `skillCoverage` is 1 as soon as a trained worker is
present, else 1
for at least two untrained workers, else ½ for exactly one, else 0 — in
particular it always lies in 0, ½, 1 and never exceeds 1 however many
workers are staffed. -/
theorem hourCoverage_values :
    (∀ (sim : List (Nat × Employee)) (skills : List Skill) (active : List Shift),
      hourCoverage sim skills active =
        (skills.map (fun skill =>
          skillCoverage
            ((active.filter (fun s => decide (s.skill = skill))).filter
              (fun s => decide (skill ∈ knownOf sim s.employeeId))).length
            ((active.filter (fun s => decide (s.skill = skill))).filter
              (fun s => decide (skill ∉ knownOf sim s.employeeId))).length)).sum) ∧
    (∀ t u : Nat,
      skillCoverage t u ∈ ({0, 1/2, 1} : Set ℚ) ∧
      skillCoverage t u ≤ 1 ∧
      (0 < t → skillCoverage t u = 1) ∧
      (t = 0 → 2 ≤ u → skillCoverage t u = 1) ∧
      (t = 0 → u = 1 → skillCoverage t u = 1/2) ∧
      (t = 0 → u = 0 → skillCoverage t u = 0)) := by
  constructor
  · intro sim skills active
    have hf : ∀ (acc : ℚ) (skill : Skill),
        (fun (acc : ℚ) (skill : Skill) =>
          let shiftsForSkill := active.filter (fun s => decide (s.skill = skill))
          if shiftsForSkill.isEmpty then acc
          else
            let trained := shiftsForSkill.filter
              (fun s => decide (skill ∈ knownOf sim s.employeeId))
            let untrained := shiftsForSkill.filter
              (fun s => decide (skill ∉ knownOf sim s.employeeId))
            acc + skillCoverage trained.length untrained.length) acc skill =
        acc + skillCoverage
          ((active.filter (fun s => decide (s.skill = skill))).filter
            (fun s => decide (skill ∈ knownOf sim s.employeeId))).length
          ((active.filter (fun s => decide (s.skill = skill))).filter
            (fun s => decide (skill ∉ knownOf sim s.employeeId))).length := by
      intro acc skill
      by_cases he : (active.filter (fun s => decide (s.skill = skill))).isEmpty
      · rw [List.isEmpty_iff] at he
        simp [he, skillCoverage]
      · simp only [he]
        simp
    unfold hourCoverage
    rw [foldl_add_eq_sum _ _ hf skills 0, zero_add]
  · intro t u
    unfold skillCoverage
    split_ifs with h1 h2 h3 <;>
      simp [Set.mem_insert_iff, Set.mem_singleton_iff] <;> norm_num <;> omega

end Bah3

namespace Bah3

/-- C1 witness: the coverage values at concrete counts. -/
theorem hourCoverage_values_witness :
    skillCoverage 0 1 = 1/2 ∧ skillCoverage 0 5 = 1 ∧ skillCoverage 3 9 = 1 ∧
    skillCoverage 0 0 = 0 :=
  ⟨(hourCoverage_values.2 0 1).2.2.2.2.1 rfl rfl,
   (hourCoverage_values.2 0 5).2.2.2.1 rfl (by norm_num),
   (hourCoverage_values.2 3 9).2.2.1 (by norm_num),
   (hourCoverage_values.2 0 0).2.2.2.2.2 rfl rfl⟩

end Bah3

namespace Bah3

/-- C6.  Scenario A: one open day 8-10 with revenue 1000 and one
required skill, one pre-trained employee at salary 10 working the full
window; the simulator yields coverage 1 in each of the two hours,
achieved skill hours 2 (so capacity 1), payroll 20 and day profit
1000 · 1² − 20 − 100 = 880, which is also the run's total score. -/
theorem scenarioA_C6 :
    (hourStep ExC6.org [ExC6.emp] ExC6.day [ExC6.shift]
        (initialSimState [ExC6.emp]) 8).1 = 1 ∧
    (hourStep ExC6.org [ExC6.emp] ExC6.day [ExC6.shift]
        (hourStep ExC6.org [ExC6.emp] ExC6.day [ExC6.shift]
          (initialSimState [ExC6.emp]) 8).2.2 9).1 = 1 ∧
    (simulateDay ExC6.org [ExC6.emp] ExC6.day [ExC6.shift]
        (initialSimState [ExC6.emp])).1 = 2 ∧
    dayCapacity ExC6.day 2 = 1 ∧
    (simulateDay ExC6.org [ExC6.emp] ExC6.day [ExC6.shift]
        (initialSimState [ExC6.emp])).2.1 = 20 ∧
    dayProfit ExC6.org ExC6.day 2 20 = 880 ∧
    calculateScore ExC6.org [ExC6.day] [ExC6.emp] [(1, [ExC6.shift])] = 880 := by
  refine ⟨?_, ?_, ?_, ?_, by decide, ?_, ?_⟩ <;>
    norm_num [calculateScore, runDays, dayProfit, dayCapacity,
      Day.totalRequiredSkillHours, simulateDay, runHours, hourStep, hourCoverage,
      applyStaged, activeAt, activeEmployeeIds, skillCoverage, knownOf, addSkill,
      hourPayroll, hourPay, teachersBySkill, pointsGainedFor, trainLearners,
      findEmployee, lookupA, setA, initialSimState, EmployeeState.addHour,
      EmployeeState.getHoursThisWeek, EmployeeState.getTrainingPoints,
      EmployeeState.addTrainingPoints, getWeekIndex, ExC6.org, ExC6.day, ExC6.emp,
      ExC6.shift, List.range', List.filter]

end Bah3

/-- Base-then-overtime billing of `d` hours against a remaining base
allotment `R` telescopes into a per-hour choice. -/
theorem baseOt_sum (s r R : Nat) :
    ∀ d, min d R * s + (d - min d R) * r =
      ((List.range d).map (fun i => if i < R then s else r)).sum := by
  intro d
  induction d with
  | zero => simp
  | succ d ih =>
      rw [List.range_succ, List.map_append, List.sum_append, ← ih]
      simp only [List.map_cons, List.map_nil, List.sum_cons, List.sum_nil]
      by_cases hd : d < R
      · rw [min_eq_left (by omega : d + 1 ≤ R), min_eq_left (by omega : d ≤ R),
          if_pos hd, Nat.sub_self, Nat.sub_self, Nat.succ_mul]
        ring
      · rw [min_eq_right (by omega : R ≤ d + 1), min_eq_right (by omega : R ≤ d),
          if_neg hd, show d + 1 - R = (d - R) + 1 by omega, Nat.succ_mul]
        ring

/-- C4.  Billing of every worked hour: bah3's hourly step advances the
weekly counter by exactly 1 and bills base salary exactly when the
pre-increment counter is below `maxHoursPerWeek`, else the overtime rate,
which is the integer floor of `salary * overtimeModifierPercent / 100`;
rep_validator's per-shift `calculatePayroll` telescopes into the same
per-hour rule, hour by hour over the shift's duration, and advances the
weekly counter by the full duration. -/
theorem payroll_hour_rule_C4 :
    (∀ (org : Bah3.Organization) (emp : Bah3.Employee)
        (st : Bah3.EmployeeState) (dayId : Nat),
      (st.addHour dayId).getHoursThisWeek dayId = st.getHoursThisWeek dayId + 1 ∧
      Bah3.hourPay org emp ((st.addHour dayId).getHoursThisWeek dayId) =
        (if st.getHoursThisWeek dayId < emp.maxHoursPerWeek then emp.salaryPerHour
         else emp.salaryPerHour * org.overtimeModifierPercent / 100)) ∧
    (∀ (salary mod : Nat),
      salary * mod / 100 = ⌊((salary * mod : Nat) : ℚ) / ((100 : Nat) : ℚ)⌋₊) ∧
    (∀ (org : RepValidator.ROrg) (emp : RepValidator.REmployee)
        (weekly : List (Nat × Nat)) (dur : Nat),
      (RepValidator.calculatePayroll org emp weekly dur).1 =
        ((List.range dur).map (fun i =>
          if (lookupA weekly emp.id).getD 0 + i < emp.maxHoursPerWeek
          then emp.salaryPerHour
          else emp.salaryPerHour * org.overtimeMod / 100)).sum ∧
      lookupA (RepValidator.calculatePayroll org emp weekly dur).2 emp.id =
        some ((lookupA weekly emp.id).getD 0 + dur)) := by
  refine ⟨?_, ?_, ?_⟩
  · intro org emp st dayId
    have hinc : (st.addHour dayId).getHoursThisWeek dayId =
        st.getHoursThisWeek dayId + 1 := by
      simp [Bah3.EmployeeState.addHour, Bah3.EmployeeState.getHoursThisWeek,
        lookupA_setA_self]
    refine ⟨hinc, ?_⟩
    rw [hinc]
    unfold Bah3.hourPay
    by_cases h : st.getHoursThisWeek dayId < emp.maxHoursPerWeek
    · rw [if_pos (by omega), if_pos h]
    · rw [if_neg (by omega), if_neg h]
  · intro salary mod
    rw [Nat.floor_div_nat, Nat.floor_natCast]
  · intro org emp weekly dur
    unfold RepValidator.calculatePayroll
    refine ⟨?_, by simp [lookupA_setA_self]⟩
    have hfun : (fun i => if (lookupA weekly emp.id).getD 0 + i < emp.maxHoursPerWeek
        then emp.salaryPerHour else emp.salaryPerHour * org.overtimeMod / 100) =
        (fun i => if i < emp.maxHoursPerWeek - (lookupA weekly emp.id).getD 0
        then emp.salaryPerHour else emp.salaryPerHour * org.overtimeMod / 100) := by
      funext i
      by_cases hc : (lookupA weekly emp.id).getD 0 + i < emp.maxHoursPerWeek
      · rw [if_pos hc, if_pos (by omega)]
      · rw [if_neg hc, if_neg (by omega)]
    rw [hfun]
    exact baseOt_sum emp.salaryPerHour (emp.salaryPerHour * org.overtimeMod / 100)
      (emp.maxHoursPerWeek - (lookupA weekly emp.id).getD 0) dur

namespace Bah3

/-- Hoisting the seed out of the running-maximum fold over teaching
rates. -/
theorem teachRate_foldl_hoist (sim : List (Nat × Employee)) :
    ∀ (l : List Shift) (a : Nat),
      l.foldl (fun r s => max r (((lookupA sim s.employeeId).getD default).teachingRate)) a =
        max a (l.foldl
          (fun r s => max r (((lookupA sim s.employeeId).getD default).teachingRate)) 0) := by
  intro l
  induction l with
  | nil => intro a; simp
  | cons x rest ih =>
      intro a
      rw [List.foldl_cons, List.foldl_cons, ih, ih
        (max 0 (((lookupA sim x.employeeId).getD default).teachingRate))]
      omega

/-- The simulation clone's skill set read through `getD default` is
`knownOf`. -/
theorem knownSkills_getD (sim : List (Nat × Employee)) (empId : Nat) :
    ((lookupA sim empId).getD default).knownSkills = knownOf sim empId := by
  cases h : lookupA sim empId
  · simp [knownOf, h]; rfl
  · simp [knownOf, h]

/-- One step of the maximum teaching rate over a shift list. -/
theorem maxTeachingRate_cons (sim : List (Nat × Employee)) (sk : Skill)
    (s : Shift) (rest : List Shift) :
    maxTeachingRate sim (s :: rest) sk =
      (if s.skill = sk ∧ sk ∈ knownOf sim s.employeeId
       then max (((lookupA sim s.employeeId).getD default).teachingRate)
         (maxTeachingRate sim rest sk)
       else maxTeachingRate sim rest sk) := by
  unfold maxTeachingRate
  rw [List.filter_cons]
  by_cases hp : s.skill = sk ∧ sk ∈ knownOf sim s.employeeId
  · rw [if_pos hp]
    simp only [hp, and_self, decide_True, if_true, List.foldl_cons]
    rw [teachRate_foldl_hoist]
    omega
  · rw [if_neg hp]
    simp [hp]

end Bah3

namespace Bah3

/-- The `teachersBySkill` map realises, for every skill, exactly the
maximum teaching rate of the trained workers active on it (reading an
absent key as 0). -/
theorem lookupA_teachersBySkill (sim : List (Nat × Employee)) (sk : Skill) :
    ∀ (active : List Shift) (m : List (Skill × Nat)),
      (lookupA (active.foldl
        (fun m s =>
          let emp := ((lookupA sim s.employeeId).getD default)
          if s.skill ∈ emp.knownSkills then
            let currentMax := (lookupA m s.skill).getD 0
            if currentMax < emp.teachingRate then setA m s.skill emp.teachingRate else m
          else m) m) sk).getD 0 =
      max ((lookupA m sk).getD 0) (maxTeachingRate sim active sk) := by
  intro active
  induction active with
  | nil =>
      intro m
      simp [maxTeachingRate]
  | cons s rest ih =>
      intro m
      rw [List.foldl_cons, ih, maxTeachingRate_cons]
      by_cases htr : s.skill ∈ knownOf sim s.employeeId
      · simp only [knownSkills_getD, htr, if_true]
        by_cases hsk : s.skill = sk
        · subst hsk
          simp only [htr, and_self, if_true]
          by_cases hlt : (lookupA m s.skill).getD 0 <
              ((lookupA sim s.employeeId).getD default).teachingRate
          · rw [if_pos hlt]
            rw [lookupA_setA_self]
            simp only [Option.getD_some]
            omega
          · rw [if_neg hlt]
            omega
        · have hne : ¬(s.skill = sk ∧ sk ∈ knownOf sim s.employeeId) := by
            intro hc; exact hsk hc.1
          rw [if_neg hne]
          by_cases hlt : (lookupA m s.skill).getD 0 <
              ((lookupA sim s.employeeId).getD default).teachingRate
          · rw [if_pos hlt, lookupA_setA_ne _ _ _ _ hsk]
          · rw [if_neg hlt]
      · simp only [knownSkills_getD, htr, if_false]
        have hne : ¬(s.skill = sk ∧ sk ∈ knownOf sim s.employeeId) := by
          intro hc
          rw [hc.1] at htr
          exact htr hc.2
        rw [if_neg hne]

end Bah3

namespace Bah3

/-- C5 (amended).  The points an untrained worker gains in an hour are
`learningRate` times the maximum teaching rate of the trained workers
simultaneously active on the skill when that maximum is positive, and
times 1 otherwise — so the bonus also defaults to 1 when the only
trained workers present teach at rate 0; in particular, with no trained
co-worker on the skill at all, each untrained worker gains exactly
`learningRate` per hour. -/
theorem teacher_bonus_rule_C5 :
    (∀ (employees : List Employee) (sim : List (Nat × Employee))
        (active : List Shift) (ls : Shift),
      pointsGainedFor employees (teachersBySkill sim active) ls =
        ((findEmployee employees ls.employeeId).getD default).learningRate *
          (if 0 < maxTeachingRate sim active ls.skill
           then maxTeachingRate sim active ls.skill else 1)) ∧
    (∀ (employees : List Employee) (sim : List (Nat × Employee))
        (active : List Shift) (ls : Shift),
      (∀ s ∈ active, s.skill = ls.skill → ls.skill ∉ knownOf sim s.employeeId) →
      pointsGainedFor employees (teachersBySkill sim active) ls =
        ((findEmployee employees ls.employeeId).getD default).learningRate) := by
  have main : ∀ (employees : List Employee) (sim : List (Nat × Employee))
      (active : List Shift) (ls : Shift),
      pointsGainedFor employees (teachersBySkill sim active) ls =
        ((findEmployee employees ls.employeeId).getD default).learningRate *
          (if 0 < maxTeachingRate sim active ls.skill
           then maxTeachingRate sim active ls.skill else 1) := by
    intro employees sim active ls
    unfold pointsGainedFor teachersBySkill
    rw [lookupA_teachersBySkill]
    simp [lookupA]
  refine ⟨main, ?_⟩
  intro employees sim active ls hnone
  rw [main]
  have hempty : List.filter
      (fun s => decide (s.skill = ls.skill ∧ ls.skill ∈ knownOf sim s.employeeId))
      active = [] := by
    rw [List.filter_eq_nil_iff]
    intro s hs
    simp only [decide_eq_true_eq, not_and]
    intro h1
    exact hnone s hs h1
  have hzero : maxTeachingRate sim active ls.skill = 0 := by
    unfold maxTeachingRate
    rw [hempty]
    rfl
  rw [hzero]
  simp

/-- C5 counterexample: with a trained teacher whose teaching rate is 0
active alongside the learner, the claim's formula
`learningRate × max(teachingRate of trained workers present)` yields 0,
but the source gives the learner the full plain `learningRate` (5): the
claimed default-to-1 applies not only when no trained worker is present
but whenever the maximum present teaching rate is 0. -/
theorem teacher_bonus_zero_rate_C5 :
    specTeacherBonus ExC5.sim ExC5.active "Register".data = 0 ∧
    pointsGainedFor [ExC5.teacher, ExC5.learner]
      (teachersBySkill ExC5.sim ExC5.active) ⟨2, 8, 9, "Register".data⟩ = 5 ∧
    ExC5.learner.learningRate *
      specTeacherBonus ExC5.sim ExC5.active "Register".data = 0 ∧
    pointsGainedFor [ExC5.teacher, ExC5.learner]
      (teachersBySkill ExC5.sim ExC5.active) ⟨2, 8, 9, "Register".data⟩ ≠
      ExC5.learner.learningRate *
        specTeacherBonus ExC5.sim ExC5.active "Register".data := by
  decide

/-- C5 witness: a learner alone with one other untrained worker on the
skill gains exactly the learning rate. -/
theorem teacher_bonus_rule_C5_witness :
    pointsGainedFor [ExC5.learner]
      (teachersBySkill [(2, ExC5.learner)] [⟨2, 8, 9, "Register".data⟩])
      ⟨2, 8, 9, "Register".data⟩ = 5 := by
  have h := teacher_bonus_rule_C5.2 [ExC5.learner] [(2, ExC5.learner)]
    [⟨2, 8, 9, "Register".data⟩] ⟨2, 8, 9, "Register".data⟩ (by decide)
  rw [h]
  decide

end Bah3

/-- The keys of an updated association list: unchanged when the key was
present, appended otherwise. -/
theorem setA_map_fst {α β : Type} [DecidableEq α] :
    ∀ (l : List (α × β)) (k : α) (v : β),
      (setA l k v).map Prod.fst =
        if k ∈ l.map Prod.fst then l.map Prod.fst else l.map Prod.fst ++ [k] := by
  intro l
  induction l with
  | nil => intro k v; simp [setA]
  | cons p rest ih =>
      intro k v
      by_cases hp : p.1 = k
      · simp [setA, hp]
      · have hne : ¬ k = p.1 := fun hc => hp hc.symm
        simp only [setA, if_neg hp, List.map_cons, ih, List.mem_cons]
        by_cases hk : k ∈ rest.map Prod.fst
        · simp [hk, hne]
        · simp [hk, hne]

/-- Updating preserves distinctness of the keys. -/
theorem setA_keys_nodup {α β : Type} [DecidableEq α]
    (l : List (α × β)) (k : α) (v : β) (h : (l.map Prod.fst).Nodup) :
    ((setA l k v).map Prod.fst).Nodup := by
  rw [setA_map_fst]
  by_cases hk : k ∈ l.map Prod.fst
  · simpa [hk] using h
  · simp only [hk, if_false]
    simp [List.nodup_append, h, hk]

namespace Bah3

/-- The staging map built during an hour has distinct keys. -/
theorem trainLearners_staged_keys_nodup (employees : List Employee)
    (sim : List (Nat × Employee)) (teachers : List (Skill × Nat)) :
    ∀ (learners : List Shift) (states : List (Nat × EmployeeState))
      (staged : List (Nat × Skill)),
      (staged.map Prod.fst).Nodup →
      ((trainLearners employees sim teachers learners states staged).2.map Prod.fst).Nodup := by
  intro learners
  induction learners with
  | nil => intro states staged h; exact h
  | cons ls rest ih =>
      intro states staged h
      unfold trainLearners
      rw [List.foldl_cons]
      by_cases hk : ls.skill ∈ knownOf sim ls.employeeId
      · simp only [if_pos hk]
        exact ih states staged h
      · simp only [if_neg hk]
        by_cases hp : 1000 ≤ (((lookupA states ls.employeeId).getD default).addTrainingPoints
            ls.skill (pointsGainedFor employees teachers ls)).getTrainingPoints ls.skill
        · simp only [if_pos hp]
          exact ih _ _ (setA_keys_nodup _ _ _ h)
        · simp only [if_neg hp]
          exact ih _ _ h

/-- Applying a staging map leaves entries whose key it does not contain
untouched. -/
theorem lookupA_applyStaged_not_mem (w : Nat) :
    ∀ (staged : List (Nat × Skill)) (sim : List (Nat × Employee)),
      w ∉ staged.map Prod.fst →
      lookupA (applyStaged sim staged) w = lookupA sim w := by
  intro staged
  induction staged with
  | nil => intro sim _; rfl
  | cons p rest ih =>
      intro sim hw
      simp only [List.map_cons, List.mem_cons, not_or] at hw
      unfold applyStaged
      rw [List.foldl_cons]
      have hstep : ∀ sim', lookupA sim' w = lookupA sim w →
          lookupA (match lookupA sim p.1 with
            | none => sim
            | some emp => setA sim p.1 { emp with knownSkills := addSkill emp.knownSkills p.2 }) w
            = lookupA sim w := by
        intro _ _
        cases hl : lookupA sim p.1 with
        | none => rfl
        | some emp => exact lookupA_setA_ne _ _ _ _ (fun hc => hw.1 hc.symm)
      cases hl : lookupA sim p.1 with
      | none =>
          have := ih sim hw.2
          simpa [applyStaged, hl] using this
      | some emp =>
          have := ih (setA sim p.1 { emp with knownSkills := addSkill emp.knownSkills p.2 }) hw.2
          simp only [applyStaged] at this
          simp only [applyStaged, hl]
          rw [this, lookupA_setA_ne _ _ _ _ (fun hc => hw.1 hc.symm)]

/-- A skill is a member of the set it was added to. -/
theorem mem_addSkill (l : List Skill) (s : Skill) : s ∈ addSkill l s := by
  unfold addSkill
  by_cases h : s ∈ l
  · simp [h]
  · simp [h]

/-- A staged promotion with distinct staging keys is applied: after
`applyStaged`, the staged skill is in the worker's clone skill set. -/
theorem mem_knownOf_applyStaged (w : Nat) (sk : Skill) :
    ∀ (staged : List (Nat × Skill)) (sim : List (Nat × Employee)),
      (staged.map Prod.fst).Nodup →
      (lookupA sim w).isSome →
      lookupA staged w = some sk →
      sk ∈ knownOf (applyStaged sim staged) w := by
  intro staged
  induction staged with
  | nil => intro sim _ _ hst; simp [lookupA] at hst
  | cons p rest ih =>
      intro sim hkeys hsim hst
      simp only [List.map_cons, List.nodup_cons] at hkeys
      unfold applyStaged
      rw [List.foldl_cons]
      by_cases hw : p.1 = w
      · subst hw
        have hsk : p.2 = sk := by
          simp only [lookupA, if_pos rfl] at hst
          exact Option.some_injective _ hst
        cases hl : lookupA sim p.1 with
        | none => rw [hl] at hsim; simp at hsim
        | some emp =>
            simp only [hl]
            have hrest : lookupA (applyStaged
                (setA sim p.1 { emp with knownSkills := addSkill emp.knownSkills p.2 }) rest)
                p.1 = lookupA
                (setA sim p.1 { emp with knownSkills := addSkill emp.knownSkills p.2 }) p.1 :=
              lookupA_applyStaged_not_mem p.1 rest _ hkeys.1
            show sk ∈ knownOf (applyStaged _ rest) p.1
            unfold knownOf
            rw [hrest, lookupA_setA_self, ← hsk]
            simpa using mem_addSkill emp.knownSkills p.2
      · have hst' : lookupA rest w = some sk := by
          simpa [lookupA, hw] using hst
        have hsim' : ∀ sim', lookupA sim' w = lookupA sim w →
            (lookupA sim' w).isSome := fun sim' he => he ▸ hsim
        cases hl : lookupA sim p.1 with
        | none => exact ih sim hkeys.2 hsim hst'
        | some emp =>
            refine ih _ hkeys.2 ?_ hst'
            rw [lookupA_setA_ne _ _ _ _ hw]
            exact hsim

end Bah3

namespace Bah3

/-- C2 (amended).  Within a day, promotions are staged and deferred: a
worker staged for promotion during hour `h` (having crossed 1000 points)
whose skill is not yet in their clone's set is still classified with the
unpromoted skill set for hour `h` itself — the hour's coverage, payroll
and training all read the set applied at the start of the hour — and the
staged skill enters the clone's set at the start of the next hour step,
whichever hour of the same day that is.  (A promotion staged during a
day's final hour is discarded with the day's staging map; see the
counterexample.) -/
theorem promotion_staged_next_hour_C2
    (org : Organization) (employees : List Employee) (day : Day)
    (shifts : List Shift) (st : SimState) (h : Nat) (w : Nat) (sk : Skill)
    (hsim : (lookupA (applyStaged st.simEmployees st.staged) w).isSome)
    (hunknown : sk ∉ knownOf (applyStaged st.simEmployees st.staged) w)
    (hstaged : lookupA (hourStep org employees day shifts st h).2.2.staged w = some sk) :
    sk ∉ knownOf (hourStep org employees day shifts st h).2.2.simEmployees w ∧
    ∀ h', sk ∈ knownOf
      (hourStep org employees day shifts
        (hourStep org employees day shifts st h).2.2 h').2.2.simEmployees w := by
  have hsimeq : (hourStep org employees day shifts st h).2.2.simEmployees =
      applyStaged st.simEmployees st.staged := rfl
  constructor
  · rw [hsimeq]; exact hunknown
  · intro h'
    have hkeys : ((hourStep org employees day shifts st h).2.2.staged.map Prod.fst).Nodup := by
      exact trainLearners_staged_keys_nodup employees _ _ _ _ [] (by simp)
    show sk ∈ knownOf (applyStaged
      (hourStep org employees day shifts st h).2.2.simEmployees
      (hourStep org employees day shifts st h).2.2.staged) w
    exact mem_knownOf_applyStaged w sk _ _ hkeys (hsimeq ▸ hsim) hstaged

/-- C2 counterexample: the worker crosses 1000 points during day 1's
final (and only) hour — the promotion is staged — but `simulateDay`
recreates the staging map for day 2, so the next processed hour (day 2,
8 o'clock) still scores the worker untrained: coverage ½, not the 1 a
trained worker would give (the last conjunct shows the same hour scores
1 once the lost staging is applied by hand). -/
theorem promotion_lost_at_day_boundary_C2 :
    ((lookupA ExC2.afterDay1.states 1).getD default).getTrainingPoints
      "Register".data = 1000 ∧
    lookupA ExC2.afterDay1.staged 1 = some "Register".data ∧
    (simulateDay ⟨50, 100⟩ [ExC2.emp] ExC2.day2 [⟨1, 8, 9, "Register".data⟩]
      ExC2.afterDay1).1 = 1/2 ∧
    (simulateDay ⟨50, 100⟩ [ExC2.emp] ExC2.day2 [⟨1, 8, 9, "Register".data⟩]
      { ExC2.afterDay1 with
        simEmployees := applyStaged ExC2.afterDay1.simEmployees
          ExC2.afterDay1.staged }).1 = 1 := by
  refine ⟨by decide, by decide, ?_, ?_⟩ <;>
    norm_num [ExC2.afterDay1, ExC2.emp, ExC2.day1, ExC2.day2, ExC2.shift1,
      simulateDay, runHours, hourStep, hourCoverage, applyStaged, activeAt,
      activeEmployeeIds, skillCoverage, knownOf, addSkill, hourPayroll, hourPay,
      teachersBySkill, pointsGainedFor, trainLearners, findEmployee, lookupA, setA,
      initialSimState, EmployeeState.addHour, EmployeeState.getHoursThisWeek,
      EmployeeState.getTrainingPoints, EmployeeState.addTrainingPoints, getWeekIndex,
      List.range', List.filter]

/-- C2 witness: in a two-hour day, the worker staged during hour 8 is
still untrained for hour 8 and is promoted for hour 9. -/
theorem promotion_staged_next_hour_C2_witness :
    "Register".data ∉ knownOf
      (hourStep ⟨50, 100⟩ [ExC2.emp] ExC2.day1 [ExC2.shift1]
        (initialSimState [ExC2.emp]) 8).2.2.simEmployees 1 ∧
    "Register".data ∈ knownOf
      (hourStep ⟨50, 100⟩ [ExC2.emp] ExC2.day1 [ExC2.shift1]
        (hourStep ⟨50, 100⟩ [ExC2.emp] ExC2.day1 [ExC2.shift1]
          (initialSimState [ExC2.emp]) 8).2.2 9).2.2.simEmployees 1 := by
  have h := promotion_staged_next_hour_C2 ⟨50, 100⟩ [ExC2.emp] ExC2.day1
    [ExC2.shift1] (initialSimState [ExC2.emp]) 8 1 "Register".data
    (by decide) (by decide) (by decide)
  exact ⟨h.1, h.2 9⟩

end Bah3

namespace Bah3

/-- C3 (amended).  bah3's weekly accounting is keyed by
`getWeekIndex = ⌊(dayId−1)/7⌋`, which partitions day ids into the blocks
7k+1 … 7k+7 anchored at day 1; an hour booked on day `d` raises the
counter read on day `d'` exactly when the two days share a block, so
hours never leak across a block boundary.  (rep_validator instead clears
its weekly map before days with `dayId % 7 === 0` — blocks 1-6, 7-13, … —
see the counterexample.) -/
theorem week_blocks_C3 :
    (∀ d k, 1 ≤ d → (getWeekIndex d = k ↔ 7*k + 1 ≤ d ∧ d ≤ 7*k + 7)) ∧
    (∀ (st : EmployeeState) (d d' : Nat),
      (st.addHour d).getHoursThisWeek d' =
        st.getHoursThisWeek d' +
          (if getWeekIndex d = getWeekIndex d' then 1 else 0)) := by
  constructor
  · intro d k hd
    unfold getWeekIndex
    omega
  · intro st d d'
    by_cases h : getWeekIndex d = getWeekIndex d'
    · simp only [EmployeeState.getHoursThisWeek, EmployeeState.addHour, ← h,
        lookupA_setA_self, Option.getD_some, if_pos]
    · simp [EmployeeState.getHoursThisWeek, EmployeeState.addHour,
        lookupA_setA_ne _ _ _ _ h, h]

end Bah3

namespace RepValidator

/-- C3 counterexample: days 6 and 7 lie in the same claimed block
(week index 0 for both under the day-1 anchor), yet rep_validator clears
the weekly map before day 7 (`7 % 7 === 0`): an employee capped at one
hour per week who works one hour on day 6 and one on day 7 is billed the
base salary 10 on both days, although under the claimed 1-7 block the
day-7 hour would be the second of the week and billed the overtime rate
`floor(10·50/100) = 5` (last conjunct: that is what `calculatePayroll`
bills when the counter is not reset). -/
theorem weekly_reset_day7_C3 :
    Bah3.getWeekIndex 6 = Bah3.getWeekIndex 7 ∧
    ExC3.records.map (fun r => (r.dayId, r.payroll)) = [(6, 10), (7, 10)] ∧
    (calculatePayroll ⟨50, 0⟩ ExC3.emp [(1, 1)] 1).1 = 5 := by
  decide

end RepValidator

namespace Bah3

/-- C3 witness: days 7 and 8 fall in week blocks 0 and 1 respectively,
and an hour booked on day 6 is visible on day 7. -/
theorem week_blocks_C3_witness :
    getWeekIndex 7 = 0 ∧ getWeekIndex 8 = 1 ∧
    ((⟨[], []⟩ : EmployeeState).addHour 6).getHoursThisWeek 7 = 1 := by
  refine ⟨(week_blocks_C3.1 7 0 (by norm_num)).mpr (by norm_num),
    (week_blocks_C3.1 8 1 (by norm_num)).mpr (by norm_num), ?_⟩
  rw [week_blocks_C3.2 ⟨[], []⟩ 6 7]
  decide

end Bah3

/-- A fold whose step only extends its accumulator list keeps the seed
as a prefix. -/
theorem foldl_isPrefix {α β : Type} (f : List β → α → List β)
    (hf : ∀ e x, e <+: f e x) : ∀ (l : List α) (e : List β), e <+: l.foldl f e := by
  intro l
  induction l with
  | nil => intro e; exact List.prefix_refl e
  | cons x rest ih => intro e; exact (hf e x).trans (ih (f e x))

/-- Conditionally appending keeps the original list as a prefix. -/
theorem prefix_appendIf {β : Type} (c : Prop) [Decidable c] (e l : List β) :
    e <+: (if c then e ++ l else e) := by
  by_cases h : c
  · simp only [if_pos h]
    exact List.prefix_append e l
  · simp [h]

/-- A prefix of both branches is a prefix of a conditional. -/
theorem prefix_ite {β : Type} (c : Prop) [Decidable c] (e a b : List β)
    (ha : e <+: a) (hb : e <+: b) : e <+: (if c then a else b) := by
  by_cases h : c
  · simpa [h] using ha
  · simpa [h] using hb

namespace Bah3

/-- The error list of the per-shift validation pass only grows. -/
theorem validateDayShifts_extends (employees : List Employee) (day : Day) :
    ∀ (shifts : List Shift) (errs : List VErr) (empShifts : List (Nat × List Shift)),
      errs <+: validateDayShifts employees day shifts errs empShifts := by
  intro shifts
  induction shifts with
  | nil => intro errs em; exact List.prefix_refl errs
  | cons s rest ih =>
      intro errs em
      unfold validateDayShifts
      cases hf : findEmployee employees s.employeeId with
      | none => exact (List.prefix_append errs _).trans (ih _ _)
      | some employee =>
          simp only []
          refine List.IsPrefix.trans ?_ (ih _ _)
          refine List.IsPrefix.trans ?_
            (foldl_isPrefix _ (fun e t => prefix_appendIf _ e _) _ _)
          refine List.IsPrefix.trans ?_ (prefix_appendIf _ _ _)
          refine List.IsPrefix.trans ?_
            (prefix_ite _ _ _ _ (List.prefix_refl _) (List.prefix_append _ _))
          exact (prefix_appendIf _ errs _).trans (prefix_appendIf _ _ _)

end Bah3

namespace Bah3

/-- A shift whose employee id is unknown leaves the per-shift pass with
a non-empty error list. -/
theorem validateDayShifts_ne_nil_of_unknown (employees : List Employee) (day : Day) :
    ∀ (shifts : List Shift) (errs : List VErr) (empShifts : List (Nat × List Shift))
      (s : Shift), s ∈ shifts → findEmployee employees s.employeeId = none →
      validateDayShifts employees day shifts errs empShifts ≠ [] := by
  intro shifts
  induction shifts with
  | nil => intro errs em s hs; exact absurd hs (List.not_mem_nil s)
  | cons t rest ih =>
      intro errs em s hs hn
      rcases List.mem_cons.mp hs with hh | hh
      · subst hh
        unfold validateDayShifts
        rw [hn]
        show validateDayShifts employees day rest
          (errs ++ [VErr.unknownEmployee day.id s]) em ≠ []
        intro hc
        have hp := validateDayShifts_extends employees day rest
          (errs ++ [VErr.unknownEmployee day.id s]) em
        rw [hc] at hp
        have h0 := List.prefix_nil.mp hp
        simp at h0
      · unfold validateDayShifts
        cases hf : findEmployee employees t.employeeId with
        | none => exact ih _ _ s hh hn
        | some employee =>
            simp only []
            exact ih _ _ s hh hn

end Bah3

namespace Bah3

end Bah3

/-- A fold whose step only extends its accumulator cannot empty a
non-empty seed. -/
theorem foldl_ne_nil {α β : Type} (f : List β → α → List β)
    (hf : ∀ e x, e <+: f e x) (l : List α) (e : List β) (he : e ≠ []) :
    l.foldl f e ≠ [] := by
  intro hc
  have hp := foldl_isPrefix f hf l e
  rw [hc] at hp
  exact he (List.prefix_nil.mp hp)

namespace Bah3

/-- C8 (amended).  A shift referencing an unknown employee id does fail
the run: `validateSchedule` returns false (and `run()` aborts before
scoring on a false verdict).  A reference to an unknown skill is not
detected at all — see the counterexample. -/
theorem unknown_employee_rejected_C8
    (days : List Day) (employees : List Employee) (sched : List (Nat × List Shift))
    (day : Day) (shifts : List Shift) (s : Shift)
    (hday : day ∈ days) (hsched : lookupA sched day.id = some shifts)
    (hs : s ∈ shifts) (hunknown : findEmployee employees s.employeeId = none) :
    validateSchedule days employees sched = false := by
  have hne : validateScheduleErrors days employees sched ≠ [] := by
    unfold validateScheduleErrors
    obtain ⟨l1, l2, rfl⟩ := List.append_of_mem hday
    rw [List.foldl_append, List.foldl_cons]
    have hstep : ∀ (e : List VErr) (d : Day),
        e <+: (match lookupA sched d.id with
          | none => e ++ [VErr.missingDay d.id]
          | some sh =>
              validateDayShifts employees d sh
                (if ¬ d.isOpen ∧ sh ≠ [] then e ++ [VErr.closedDayShifts d.id] else e)
                []) := by
      intro e d
      cases hl : lookupA sched d.id with
      | none => exact List.prefix_append e _
      | some sh =>
          exact (prefix_appendIf _ e _).trans (validateDayShifts_extends employees d sh _ [])
    refine foldl_ne_nil _ hstep l2 _ ?_
    rw [hsched]
    show validateDayShifts employees day shifts _ [] ≠ []
    exact validateDayShifts_ne_nil_of_unknown employees day shifts _ [] s hs hunknown
  unfold validateSchedule
  rw [List.isEmpty_eq_false]
  exact hne

end Bah3

namespace Bah3

/-- C8 counterexample: a shift on skill `Z` — absent from the day's
required skills and from every employee's skill set — passes
`validateSchedule` with no error whatsoever, and `calculateScore`
silently charges the worker's 2 hours of payroll against zero coverage,
delivering the normal score 1000·0² − 20 − 100 = −120 instead of
aborting. -/
theorem unknown_skill_silently_scored_C8 :
    validateScheduleErrors [ExC8.day] [ExC8.emp] ExC8.sched = [] ∧
    validateSchedule [ExC8.day] [ExC8.emp] ExC8.sched = true ∧
    calculateScore ⟨50, 100⟩ [ExC8.day] [ExC8.emp] ExC8.sched = -120 := by
  refine ⟨by decide, by decide, ?_⟩
  norm_num [ExC8.day, ExC8.emp, ExC8.sched, calculateScore, runDays, dayProfit,
    dayCapacity, Day.totalRequiredSkillHours, simulateDay, runHours, hourStep,
    hourCoverage, applyStaged, activeAt, activeEmployeeIds, skillCoverage, knownOf,
    addSkill, hourPayroll, hourPay, teachersBySkill, pointsGainedFor, trainLearners,
    findEmployee, lookupA, setA, initialSimState, EmployeeState.addHour,
    EmployeeState.getHoursThisWeek, EmployeeState.getTrainingPoints,
    EmployeeState.addTrainingPoints, getWeekIndex, List.range', List.filter]

/-- C8 witness: a schedule referencing employee 1 against an empty
employee directory is rejected. -/
theorem unknown_employee_rejected_C8_witness :
    validateSchedule [ExC8.day] [] [(1, [⟨1, 8, 10, "A".data⟩])] = false :=
  unknown_employee_rejected_C8 [ExC8.day] [] [(1, [⟨1, 8, 10, "A".data⟩])]
    ExC8.day [⟨1, 8, 10, "A".data⟩] ⟨1, 8, 10, "A".data⟩
    (by decide) (by decide) (by decide) (by decide)

end Bah3

namespace Bah3

/-- Every decimal digit character differs from the hyphen. -/
theorem digitChar_ne_hyphen (d : Nat) : digitChar d ≠ '-' := by
  unfold digitChar
  split <;> decide

/-- The decimal rendering of a number contains no hyphen. -/
theorem hyphen_not_mem_natChars (n : Nat) : '-' ∉ natChars n := by
  induction n using Nat.strong_induction_on with
  | _ n ih =>
      rw [natChars]
      by_cases h : n < 10
      · simp only [dif_pos h, List.mem_singleton]
        exact fun hc => digitChar_ne_hyphen n hc.symm
      · simp only [dif_neg h, List.mem_append, List.mem_singleton]
        rintro (hc | hc)
        · exact ih (n / 10) (Nat.div_lt_self (by omega) (by omega)) hc
        · exact digitChar_ne_hyphen (n % 10) hc.symm

/-- Value of a digit character below 10. -/
theorem charVal_digitChar (d : Nat) (h : d < 10) : charVal (digitChar d) = d := by
  interval_cases d <;> decide

/-- `Number` undoes the decimal rendering. -/
theorem parseNat_natChars (n : Nat) : parseNat (natChars n) = n := by
  induction n using Nat.strong_induction_on with
  | _ n ih =>
      rw [natChars]
      by_cases h : n < 10
      · simp only [dif_pos h, parseNat, List.foldl_cons, List.foldl_nil]
        rw [Nat.zero_mul, Nat.zero_add, charVal_digitChar n h]
      · simp only [dif_neg h, parseNat, List.foldl_append, List.foldl_cons,
          List.foldl_nil]
        have hrec := ih (n / 10) (Nat.div_lt_self (by omega) (by omega))
        unfold parseNat at hrec
        rw [hrec, charVal_digitChar (n % 10) (by omega)]
        omega

/-- Splitting a hyphen-free string yields the string itself. -/
theorem splitOnChar_not_mem (c : Char) :
    ∀ (l : List Char), c ∉ l → splitOnChar c l = [l] := by
  intro l
  induction l with
  | nil => intro _; rfl
  | cons x rest ih =>
      intro hx
      simp only [List.mem_cons, not_or] at hx
      conv_lhs => rw [splitOnChar]
      rw [if_neg (fun hc => hx.1 hc.symm), ih hx.2]

/-- Splitting around the first separator of a string whose head part is
separator-free. -/
theorem splitOnChar_append (c : Char) :
    ∀ (l1 l2 : List Char), c ∉ l1 →
      splitOnChar c (l1 ++ c :: l2) = l1 :: splitOnChar c l2 := by
  intro l1
  induction l1 with
  | nil =>
      intro l2 _
      simp only [List.nil_append]
      conv_lhs => rw [splitOnChar]
      rw [if_pos rfl]
  | cons x rest ih =>
      intro l2 hx
      simp only [List.mem_cons, not_or] at hx
      simp only [List.cons_append]
      conv_lhs => rw [splitOnChar]
      rw [if_neg (fun hc => hx.1 hc.symm), ih l2 hx.2]

/-- Decoding the group key of a shift with a hyphen-free skill recovers
the employee id and the skill. -/
theorem decode_shiftKey (s : Shift) (hsk : '-' ∉ s.skill) :
    splitOnChar '-' (shiftKey s) = [natChars s.employeeId, s.skill] := by
  unfold shiftKey
  rw [splitOnChar_append '-' (natChars s.employeeId) s.skill
    (hyphen_not_mem_natChars s.employeeId)]
  rw [splitOnChar_not_mem '-' s.skill hsk]

end Bah3

/-- Membership through stable insertion. -/
theorem mem_insertTail {α : Type} (lt : α → α → Bool) (x y : α) :
    ∀ (l : List α), y ∈ insertTail lt x l ↔ y = x ∨ y ∈ l := by
  intro l
  induction l with
  | nil => simp [insertTail]
  | cons z rest ih =>
      unfold insertTail
      cases hlt : lt x z with
      | true => simp [List.mem_cons]
      | false =>
          simp [List.mem_cons, ih]
          tauto

/-- Membership is preserved by the JS sort model. -/
theorem mem_sortJS {α : Type} (lt : α → α → Bool) (y : α) :
    ∀ (l : List α), y ∈ sortJS lt l ↔ y ∈ l := by
  have key : ∀ (l acc : List α),
      y ∈ l.foldl (fun acc x => insertTail lt x acc) acc ↔ y ∈ acc ∨ y ∈ l := by
    intro l
    induction l with
    | nil => intro acc; simp
    | cons x rest ih =>
        intro acc
        rw [List.foldl_cons, ih, mem_insertTail]
        simp [List.mem_cons]
        tauto
  intro l
  unfold sortJS
  rw [key]
  simp

namespace Bah3

/-- Slot coverage distributes over cons. -/
theorem coversSlot_cons (x : Shift) (l : List Shift) (e h : Nat) (sk : Skill) :
    coversSlot (x :: l) e h sk ↔
      (x.employeeId = e ∧ x.skill = sk ∧ x.start ≤ h ∧ h < x.stop) ∨
        coversSlot l e h sk := by
  unfold coversSlot
  constructor
  · rintro ⟨s, hs, hp⟩
    rcases List.mem_cons.mp hs with rfl | h1
    · exact Or.inl hp
    · exact Or.inr ⟨s, h1, hp⟩
  · rintro (hp | ⟨s, hs, hp⟩)
    · exact ⟨x, List.mem_cons_self x l, hp⟩
    · exact ⟨s, List.mem_cons_of_mem x hs, hp⟩

/-- The empty list covers nothing. -/
theorem coversSlot_nil (e h : Nat) (sk : Skill) : ¬ coversSlot [] e h sk := by
  unfold coversSlot
  simp

/-- Slot coverage distributes over append. -/
theorem coversSlot_append (a b : List Shift) (e h : Nat) (sk : Skill) :
    coversSlot (a ++ b) e h sk ↔ coversSlot a e h sk ∨ coversSlot b e h sk := by
  unfold coversSlot
  constructor
  · rintro ⟨s, hs, hp⟩
    rcases List.mem_append.mp hs with h1 | h1
    · exact Or.inl ⟨s, h1, hp⟩
    · exact Or.inr ⟨s, h1, hp⟩
  · rintro (⟨s, hs, hp⟩ | ⟨s, hs, hp⟩)
    · exact ⟨s, List.mem_append.mpr (Or.inl hs), hp⟩
    · exact ⟨s, List.mem_append.mpr (Or.inr hs), hp⟩

/-- The hours covered by the merge loop over one group: the current
block plus the remaining starts, independent of their order (the block
bounds stay ordered throughout the loop). -/
theorem coversSlot_mergeStarts (eid : Nat) (skl : Skill) :
    ∀ (rest : List Nat) (curStart curEnd : Nat), curStart < curEnd →
      ∀ (e h : Nat) (sk : Skill),
      coversSlot (mergeStarts eid skl rest curStart curEnd) e h sk ↔
        (eid = e ∧ skl = sk ∧ (curStart ≤ h ∧ h < curEnd ∨ h ∈ rest)) := by
  intro rest
  induction rest with
  | nil =>
      intro curStart curEnd _ e h sk
      unfold mergeStarts
      rw [coversSlot_cons]
      simp only [coversSlot_nil, List.not_mem_nil, or_false]
  | cons st rest ih =>
      intro curStart curEnd hcc e h sk
      unfold mergeStarts
      by_cases hst : st = curEnd
      · rw [if_pos hst, ih curStart (st + 1) (by omega)]
        subst hst
        simp only [List.mem_cons]
        constructor
        · rintro ⟨he, hsk, hc⟩
          refine ⟨he, hsk, ?_⟩
          rcases hc with hc | hc
          · rcases Nat.lt_succ_iff_lt_or_eq.mp hc.2 with hlt | heq
            · exact Or.inl ⟨hc.1, hlt⟩
            · exact Or.inr (Or.inl heq)
          · exact Or.inr (Or.inr hc)
        · rintro ⟨he, hsk, hc⟩
          refine ⟨he, hsk, ?_⟩
          rcases hc with hc | hc | hc
          · exact Or.inl ⟨hc.1, by omega⟩
          · exact Or.inl (by omega)
          · exact Or.inr hc
      · rw [if_neg hst, coversSlot_cons, ih st (st + 1) (by omega)]
        simp only [List.mem_cons]
        constructor
        · rintro (⟨he, hsk, hc⟩ | ⟨he, hsk, hc⟩)
          · exact ⟨he, hsk, Or.inl hc⟩
          · rcases hc with hc | hc
            · exact ⟨he, hsk, Or.inr (Or.inl (by omega))⟩
            · exact ⟨he, hsk, Or.inr (Or.inr hc)⟩
        · rintro ⟨he, hsk, hc⟩
          rcases hc with hc | hc | hc
          · exact Or.inl ⟨he, hsk, hc⟩
          · exact Or.inr ⟨he, hsk, Or.inl (by omega)⟩
          · exact Or.inr ⟨he, hsk, Or.inr hc⟩

end Bah3

namespace Bah3

/-- The slots covered by one emitted group: the decoded employee and
skill of the key, at each collected start hour. -/
theorem coversSlot_mergeGroup (key : List Char) (starts : List Nat)
    (e h : Nat) (sk : Skill) :
    coversSlot (mergeGroup key starts) e h sk ↔
      (parseNat ((splitOnChar '-' key).headD []) = e ∧
       ((splitOnChar '-' key).drop 1).headD [] = sk ∧ h ∈ starts) := by
  unfold mergeGroup
  cases hs : sortJS (fun a b => a < b) starts with
  | nil =>
      have hnil : starts = [] := by
        cases starts with
        | nil => rfl
        | cons x xs =>
            have hx := (mem_sortJS (fun a b => a < b) x (x :: xs)).mpr
              (List.mem_cons_self x xs)
            rw [hs] at hx
            exact absurd hx (List.not_mem_nil x)
      subst hnil
      simp only [List.not_mem_nil, and_false]
      exact iff_of_false (coversSlot_nil e h sk) (by simp)
  | cons st rest =>
      rw [coversSlot_mergeStarts _ _ rest st (st + 1) (by omega)]
      have hmem := mem_sortJS (fun a b => a < b) h starts
      rw [hs, List.mem_cons] at hmem
      constructor
      · rintro ⟨he, hsk, hc⟩
        refine ⟨he, hsk, ?_⟩
        rw [← hmem]
        rcases hc with hc | hc
        · exact Or.inl (by omega)
        · exact Or.inr hc
      · rintro ⟨he, hsk, hc⟩
        refine ⟨he, hsk, ?_⟩
        rw [← hmem] at hc
        rcases hc with hc | hc
        · exact Or.inl (by omega)
        · exact Or.inr hc

/-- Looking for a start hour under a key predicate in an updated group
list: either it was already there, or it is the appended start under the
given key. -/
theorem exists_addToGroups (P : List Char → Prop) (st : Nat) :
    ∀ (gs : List (List Char × List Nat)) (key : List Char) (st0 : Nat),
      (∃ k sts, (k, sts) ∈ addToGroups gs key st0 ∧ P k ∧ st ∈ sts) ↔
        ((∃ k sts, (k, sts) ∈ gs ∧ P k ∧ st ∈ sts) ∨ (P key ∧ st = st0)) := by
  intro gs
  induction gs with
  | nil =>
      intro key st0
      simp only [addToGroups, List.mem_singleton]
      constructor
      · rintro ⟨k, sts, heq, hP, hst⟩
        simp only [Prod.mk.injEq] at heq
        obtain ⟨rfl, rfl⟩ := heq
        right
        exact ⟨hP, List.mem_singleton.mp hst⟩
      · rintro (⟨k, sts, hmem, _, _⟩ | ⟨hP, hst⟩)
        · exact absurd hmem (List.not_mem_nil _)
        · exact ⟨key, [st0], rfl, hP, by simp [hst]⟩
  | cons g rest ih =>
      intro key st0
      obtain ⟨k0, sts0⟩ := g
      unfold addToGroups
      by_cases hk : k0 = key
      · subst hk
        rw [if_pos rfl]
        constructor
        · rintro ⟨k, sts, hmem, hP, hst⟩
          rcases List.mem_cons.mp hmem with heq | hmem'
          · simp only [Prod.mk.injEq] at heq
            obtain ⟨rfl, rfl⟩ := heq
            rcases List.mem_append.mp hst with hst' | hst'
            · exact Or.inl ⟨k, sts0, List.mem_cons_self _ _, hP, hst'⟩
            · exact Or.inr ⟨hP, List.mem_singleton.mp hst'⟩
          · exact Or.inl ⟨k, sts, List.mem_cons_of_mem _ hmem', hP, hst⟩
        · rintro (⟨k, sts, hmem, hP, hst⟩ | ⟨hP, hst⟩)
          · rcases List.mem_cons.mp hmem with heq | hmem'
            · simp only [Prod.mk.injEq] at heq
              obtain ⟨h1, h2⟩ := heq
              refine ⟨k0, sts0 ++ [st0], List.mem_cons_self _ _, ?_,
                List.mem_append.mpr (Or.inl ?_)⟩
              · rwa [h1] at hP
              · rwa [h2] at hst
            · exact ⟨k, sts, List.mem_cons_of_mem _ hmem', hP, hst⟩
          · exact ⟨k0, sts0 ++ [st0], List.mem_cons_self _ _, hP,
              List.mem_append.mpr (Or.inr (by simp [hst]))⟩
      · rw [if_neg hk]
        constructor
        · rintro ⟨k, sts, hmem, hP, hst⟩
          rcases List.mem_cons.mp hmem with heq | hmem'
          · simp only [Prod.mk.injEq] at heq
            obtain ⟨rfl, rfl⟩ := heq
            exact Or.inl ⟨k, sts, List.mem_cons_self _ _, hP, hst⟩
          · rcases (ih key st0).mp ⟨k, sts, hmem', hP, hst⟩ with hin | hnew
            · obtain ⟨k', sts', hmem'', hP', hst'⟩ := hin
              exact Or.inl ⟨k', sts', List.mem_cons_of_mem _ hmem'', hP', hst'⟩
            · exact Or.inr hnew
        · rintro (⟨k, sts, hmem, hP, hst⟩ | hnew)
          · rcases List.mem_cons.mp hmem with heq | hmem'
            · simp only [Prod.mk.injEq] at heq
              obtain ⟨rfl, rfl⟩ := heq
              exact ⟨k, sts, List.mem_cons_self _ _, hP, hst⟩
            · obtain ⟨k', sts', hmem'', hP', hst'⟩ :=
                (ih key st0).mpr (Or.inl ⟨k, sts, hmem', hP, hst⟩)
              exact ⟨k', sts', List.mem_cons_of_mem _ hmem'', hP', hst'⟩
          · obtain ⟨k', sts', hmem'', hP', hst'⟩ := (ih key st0).mpr (Or.inr hnew)
            exact ⟨k', sts', List.mem_cons_of_mem _ hmem'', hP', hst'⟩

/-- Looking for a start hour under a key predicate in the built groups:
it comes from the seed groups or from a shift of the list. -/
theorem exists_buildGroups (P : List Char → Prop) (st : Nat) :
    ∀ (l : List Shift) (gs : List (List Char × List Nat)),
      (∃ k sts, (k, sts) ∈ buildGroups l gs ∧ P k ∧ st ∈ sts) ↔
        ((∃ k sts, (k, sts) ∈ gs ∧ P k ∧ st ∈ sts) ∨
          (∃ s ∈ l, P (shiftKey s) ∧ s.start = st)) := by
  intro l
  induction l with
  | nil =>
      intro gs
      simp only [buildGroups, List.not_mem_nil, false_and, exists_false,
        exists_const, or_false]
  | cons s rest ih =>
      intro gs
      unfold buildGroups
      rw [ih, exists_addToGroups]
      simp only [List.mem_cons]
      constructor
      · rintro ((hin | ⟨hP, hst⟩) | hrest)
        · exact Or.inl hin
        · exact Or.inr ⟨s, Or.inl rfl, hP, hst.symm⟩
        · obtain ⟨t, ht, hP, hst⟩ := hrest
          exact Or.inr ⟨t, Or.inr ht, hP, hst⟩
      · rintro (hin | ⟨t, ht | ht, hP, hst⟩)
        · exact Or.inl (Or.inl hin)
        · subst ht
          exact Or.inl (Or.inr ⟨hP, hst.symm⟩)
        · exact Or.inr ⟨t, ht, hP, hst⟩

end Bah3

/-- A left fold that appends blocks is the join of the mapped blocks. -/
theorem foldl_append_join {α β : Type} (f : α → List β) :
    ∀ (gs : List α) (acc : List β),
      gs.foldl (fun acc g => acc ++ f g) acc = acc ++ (gs.map f).flatten := by
  intro gs
  induction gs with
  | nil => intro acc; simp
  | cons g rest ih =>
      intro acc
      rw [List.foldl_cons, ih, List.map_cons, List.flatten_cons, List.append_assoc]

namespace Bah3

/-- C10: for single-hour shifts whose skill names are hyphen-free,
`mergeShifts` preserves exactly the set of staffed
(employee, hour, skill) slots: a slot is covered by the merged schedule
iff it was covered by the original shifts. -/
theorem mergeShifts_preserves_slots_C10 (shifts : List Shift)
    (hone : ∀ s ∈ shifts, s.stop = s.start + 1)
    (hhyp : ∀ s ∈ shifts, '-' ∉ s.skill) (e h : Nat) (sk : Skill) :
    coversSlot (mergeShifts shifts) e h sk ↔ coversSlot shifts e h sk := by
  unfold mergeShifts
  rw [foldl_append_join, List.nil_append]
  have hjoin : coversSlot (((buildGroups shifts []).map
      (fun g => mergeGroup g.1 g.2)).flatten) e h sk ↔
      ∃ g ∈ buildGroups shifts [], coversSlot (mergeGroup g.1 g.2) e h sk := by
    unfold coversSlot
    constructor
    · rintro ⟨s, hs, hp⟩
      rw [List.mem_flatten] at hs
      obtain ⟨l, hl, hsl⟩ := hs
      rw [List.mem_map] at hl
      obtain ⟨g, hg, rfl⟩ := hl
      exact ⟨g, hg, s, hsl, hp⟩
    · rintro ⟨g, hg, s, hsl, hp⟩
      refine ⟨s, ?_, hp⟩
      rw [List.mem_flatten]
      exact ⟨mergeGroup g.1 g.2, List.mem_map.mpr ⟨g, hg, rfl⟩, hsl⟩
  rw [hjoin]
  have hstep : (∃ g ∈ buildGroups shifts [],
      coversSlot (mergeGroup g.1 g.2) e h sk) ↔
      (∃ k sts, (k, sts) ∈ buildGroups shifts [] ∧
        (parseNat ((splitOnChar '-' k).headD []) = e ∧
          ((splitOnChar '-' k).drop 1).headD [] = sk) ∧ h ∈ sts) := by
    constructor
    · rintro ⟨g, hg, hc⟩
      rw [coversSlot_mergeGroup] at hc
      exact ⟨g.1, g.2, hg, ⟨hc.1, hc.2.1⟩, hc.2.2⟩
    · rintro ⟨k, sts, hmem, hP, hst⟩
      exact ⟨(k, sts), hmem,
        (coversSlot_mergeGroup k sts e h sk).mpr ⟨hP.1, hP.2, hst⟩⟩
  rw [hstep,
    exists_buildGroups (fun k => parseNat ((splitOnChar '-' k).headD []) = e ∧
      ((splitOnChar '-' k).drop 1).headD [] = sk) h shifts []]
  simp only [List.not_mem_nil, false_and, exists_false, exists_const, false_or]
  unfold coversSlot
  constructor
  · rintro ⟨s, hs, ⟨hid, hsk2⟩, hst⟩
    rw [decode_shiftKey s (hhyp s hs), List.headD_cons, parseNat_natChars] at hid
    rw [decode_shiftKey s (hhyp s hs)] at hsk2
    simp only [List.drop_succ_cons, List.drop_zero, List.headD_cons] at hsk2
    have h1 := hone s hs
    exact ⟨s, hs, hid, hsk2, by omega, by omega⟩
  · rintro ⟨s, hs, hid, hsk2, hlo, hhi⟩
    have h1 := hone s hs
    refine ⟨s, hs, ?_, by omega⟩
    rw [decode_shiftKey s (hhyp s hs)]
    simp only [List.headD_cons, List.drop_succ_cons, List.drop_zero]
    exact ⟨by rw [parseNat_natChars]; exact hid, hsk2⟩

end Bah3

namespace Bah3

/-- C10 counterexample: the merge key `` `${employeeId}-${skill}` `` is
re-split on every `'-'` and only the first two components are kept, so a
skill containing a hyphen is truncated: the slot (1, 8, "a-b") staffed
before merging is no longer staffed after merging, and a slot on the
fabricated skill "a" appears instead. -/
theorem mergeShifts_hyphen_truncation_C10 :
    mergeShifts [⟨1, 8, 9, "a-b".data⟩] = [⟨1, 8, 9, "a".data⟩] ∧
      coversSlot [(⟨1, 8, 9, "a-b".data⟩ : Shift)] 1 8 "a-b".data ∧
      ¬ coversSlot [(⟨1, 8, 9, "a".data⟩ : Shift)] 1 8 "a-b".data ∧
      coversSlot [(⟨1, 8, 9, "a".data⟩ : Shift)] 1 8 "a".data := by
  have hnat : natChars 1 = ['1'] := by
    rw [natChars, dif_pos (show (1 : Nat) < 10 by norm_num)]
    rfl
  refine ⟨?_, by decide, by decide, by decide⟩
  show (buildGroups [⟨1, 8, 9, "a-b".data⟩] []).foldl
      (fun acc g => acc ++ mergeGroup g.1 g.2) [] = [⟨1, 8, 9, "a".data⟩]
  show [(shiftKey ⟨1, 8, 9, "a-b".data⟩, [8])].foldl
      (fun acc g => acc ++ mergeGroup g.1 g.2) [] = [⟨1, 8, 9, "a".data⟩]
  rw [show shiftKey ⟨1, 8, 9, "a-b".data⟩ = natChars 1 ++ '-' :: "a-b".data
    from rfl, hnat]
  rfl

end Bah3

namespace Bah3

/-- Concrete instantiation of the C10 preservation theorem: merging two
contiguous one-hour shifts preserves the staffed slot at hour 9. -/
theorem mergeShifts_preserves_slots_C10_witness :
    coversSlot (mergeShifts [⟨1, 8, 9, "a".data⟩, ⟨1, 9, 10, "a".data⟩])
        1 9 "a".data ↔
      coversSlot [(⟨1, 8, 9, "a".data⟩ : Shift), ⟨1, 9, 10, "a".data⟩]
        1 9 "a".data :=
  mergeShifts_preserves_slots_C10 [⟨1, 8, 9, "a".data⟩, ⟨1, 9, 10, "a".data⟩]
    (by decide) (by decide) 1 9 "a".data

end Bah3

/-- Stable insertion permutes a cons. -/
theorem perm_insertTail {α : Type} (lt : α → α → Bool) (x : α) :
    ∀ (l : List α), (insertTail lt x l).Perm (x :: l) := by
  intro l
  induction l with
  | nil => exact List.Perm.refl _
  | cons z rest ih =>
      unfold insertTail
      cases hlt : lt x z with
      | true => exact List.Perm.refl _
      | false =>
          exact List.Perm.trans (List.Perm.cons z ih) (List.Perm.swap x z rest)

/-- The JS sort model permutes its input. -/
theorem perm_sortJS {α : Type} (lt : α → α → Bool) :
    ∀ (l : List α), (sortJS lt l).Perm l := by
  have key : ∀ (l acc : List α),
      (l.foldl (fun acc x => insertTail lt x acc) acc).Perm (l.reverse ++ acc) := by
    intro l
    induction l with
    | nil => intro acc; simp [List.Perm.refl]
    | cons x rest ih =>
        intro acc
        rw [List.foldl_cons]
        refine List.Perm.trans (ih (insertTail lt x acc)) ?_
        have h1 : (rest.reverse ++ insertTail lt x acc).Perm
            (rest.reverse ++ x :: acc) :=
          List.Perm.append_left _ (perm_insertTail lt x acc)
        refine List.Perm.trans h1 ?_
        simp only [List.reverse_cons, List.append_assoc, List.singleton_append]
        exact List.Perm.refl _
  intro l
  unfold sortJS
  refine List.Perm.trans (key l []) ?_
  simp only [List.append_nil]
  exact List.reverse_perm l

namespace Bah3

/-- Every candidate of a day is a real employee not on vacation that
day. -/
theorem mem_sortedAvailable (employees : List Employee) (day : Day)
    (e : Employee) (h : e ∈ sortedAvailable employees day) :
    e ∈ employees ∧ day.id ∉ e.vacationDays := by
  unfold sortedAvailable at h
  rw [mem_sortJS] at h
  rw [List.mem_filter] at h
  exact ⟨h.1, by simpa using h.2⟩

/-- The candidate pool keeps employee ids duplicate-free. -/
theorem nodup_sortedAvailable_ids (employees : List Employee) (day : Day)
    (hids : (employees.map (fun e => e.id)).Nodup) :
    ((sortedAvailable employees day).map (fun e => e.id)).Nodup := by
  unfold sortedAvailable
  have hperm := List.Perm.map (fun e => e.id)
    (perm_sortJS (fun a b => decide (a.salaryPerHour < b.salaryPerHour))
      (employees.filter (fun e => decide (day.id ∉ e.vacationDays))))
  refine (List.Perm.nodup_iff hperm).mpr ?_
  exact List.Nodup.sublist
    (List.Sublist.map _ (List.filter_sublist employees)) hids

end Bah3

namespace Bah3

/-- One step of the per-skill assignment keeps the invariant: the booked
shifts' employee ids are exactly the assigned-id list, that list is
duplicate-free, and every booked shift belongs to a candidate and spans
the full open window. -/
theorem assignSkill_step (day : Day) (avail : List Employee)
    (hnd : (avail.map (fun e => e.id)).Nodup)
    (acc : List Shift × List Nat) (skill : Skill)
    (h1 : acc.1.map (fun s => s.employeeId) = acc.2) (h2 : acc.2.Nodup)
    (h3 : ∀ s ∈ acc.1, (∃ emp ∈ avail, emp.id = s.employeeId) ∧
      s.start = day.start ∧ s.stop = day.stop) :
    (assignSkill day avail acc skill).1.map (fun s => s.employeeId) =
      (assignSkill day avail acc skill).2 ∧
    (assignSkill day avail acc skill).2.Nodup ∧
    (∀ s ∈ (assignSkill day avail acc skill).1,
      (∃ emp ∈ avail, emp.id = s.employeeId) ∧
        s.start = day.start ∧ s.stop = day.stop) := by
  unfold assignSkill
  cases hfind : avail.find? (fun e => decide (e.id ∉ acc.2) &&
      decide (skill ∈ e.knownSkills)) with
  | some emp =>
      have hmem := List.mem_of_find?_eq_some hfind
      have hpred := List.find?_some hfind
      rw [Bool.and_eq_true, decide_eq_true_eq, decide_eq_true_eq] at hpred
      refine ⟨by simp [h1], ?_, ?_⟩
      · rw [List.nodup_append]
        exact ⟨h2, List.nodup_singleton _, by
          simp only [List.disjoint_singleton]
          exact hpred.1⟩
      · intro s hs
        rcases List.mem_append.mp hs with hs | hs
        · exact h3 s hs
        · rw [List.mem_singleton] at hs
          subst hs
          exact ⟨⟨emp, hmem, rfl⟩, rfl, rfl⟩
  | none =>
      cases hfil : avail.filter (fun e => decide (e.id ∉ acc.2)) with
      | nil => exact ⟨h1, h2, h3⟩
      | cons e1 tl =>
          have he1 : e1 ∈ avail ∧ e1.id ∉ acc.2 := by
            have := List.mem_filter.mp
              (hfil ▸ List.mem_cons_self e1 tl)
            exact ⟨this.1, by simpa using this.2⟩
          cases tl with
          | nil =>
              refine ⟨by simp [h1], ?_, ?_⟩
              · rw [List.nodup_append]
                exact ⟨h2, List.nodup_singleton _, by
                  simp only [List.disjoint_singleton]
                  exact he1.2⟩
              · intro s hs
                rcases List.mem_append.mp hs with hs | hs
                · exact h3 s hs
                · rw [List.mem_singleton] at hs
                  subst hs
                  exact ⟨⟨e1, he1.1, rfl⟩, rfl, rfl⟩
          | cons e2 tl2 =>
              have he2 : e2 ∈ avail ∧ e2.id ∉ acc.2 := by
                have := List.mem_filter.mp
                  (hfil ▸ List.mem_cons_of_mem e1 (List.mem_cons_self e2 tl2))
                exact ⟨this.1, by simpa using this.2⟩
              have hne : e1.id ≠ e2.id := by
                have hsub : ((avail.filter
                    (fun e => decide (e.id ∉ acc.2))).map
                      (fun e => e.id)).Nodup :=
                  List.Nodup.sublist
                    (List.Sublist.map _ (List.filter_sublist avail)) hnd
                rw [hfil] at hsub
                simp only [List.map_cons, List.nodup_cons, List.mem_cons,
                  not_or] at hsub
                exact hsub.1.1
              refine ⟨by simp [h1], ?_, ?_⟩
              · rw [List.nodup_append]
                refine ⟨h2, ?_, ?_⟩
                · simp only [List.nodup_cons, List.mem_singleton,
                    List.nodup_singleton, and_true]
                  exact ⟨hne, by simp⟩
                · intro a ha hb
                  simp only [List.mem_cons, List.mem_singleton,
                    List.not_mem_nil, or_false] at hb
                  rcases hb with rfl | rfl
                  · exact he1.2 ha
                  · exact he2.2 ha
              · intro s hs
                rcases List.mem_append.mp hs with hs | hs
                · exact h3 s hs
                · simp only [List.mem_cons, List.not_mem_nil, or_false] at hs
                  rcases hs with rfl | rfl
                  · exact ⟨⟨e1, he1.1, rfl⟩, rfl, rfl⟩
                  · exact ⟨⟨e2, he2.1, rfl⟩, rfl, rfl⟩

end Bah3

namespace Bah3

/-- The invariant of `assignSkill_step` is preserved by the whole fold
over a day's required skills. -/
theorem assignSkill_foldl (day : Day) (avail : List Employee)
    (hnd : (avail.map (fun e => e.id)).Nodup) :
    ∀ (skills : List Skill) (acc : List Shift × List Nat),
      acc.1.map (fun s => s.employeeId) = acc.2 → acc.2.Nodup →
      (∀ s ∈ acc.1, (∃ emp ∈ avail, emp.id = s.employeeId) ∧
        s.start = day.start ∧ s.stop = day.stop) →
      (skills.foldl (assignSkill day avail) acc).1.map
          (fun s => s.employeeId) =
        (skills.foldl (assignSkill day avail) acc).2 ∧
      (skills.foldl (assignSkill day avail) acc).2.Nodup ∧
      (∀ s ∈ (skills.foldl (assignSkill day avail) acc).1,
        (∃ emp ∈ avail, emp.id = s.employeeId) ∧
          s.start = day.start ∧ s.stop = day.stop) := by
  intro skills
  induction skills with
  | nil => intro acc h1 h2 h3; exact ⟨h1, h2, h3⟩
  | cons sk rest ih =>
      intro acc h1 h2 h3
      rw [List.foldl_cons]
      obtain ⟨g1, g2, g3⟩ := assignSkill_step day avail hnd acc sk h1 h2 h3
      exact ih (assignSkill day avail acc sk) g1 g2 g3

/-- Shift lists with duplicate-free employee ids trivially satisfy the
per-employee no-overlap condition. -/
theorem noOverlap_of_nodup_ids (shifts : List Shift)
    (h : (shifts.map (fun s => s.employeeId)).Nodup) :
    noOverlapPerEmployee shifts := by
  unfold noOverlapPerEmployee
  rw [List.Nodup, List.pairwise_map] at h
  exact h.imp (fun hne heq => absurd heq hne)

end Bah3

namespace Bah3

/-- C7 (bah3's generator): on a well-formed model (duplicate-free
employee ids, open days with a nonempty window) the greedy scheduler
always produces a structurally valid schedule: closed days get no
shifts, every shift belongs to an existing employee who is not on
vacation that day, every shift spans exactly the day's open window (so
none lies outside it and none has start ≥ end), and no employee holds
two overlapping shifts on one day.  An uncoverable skill simply books
nothing. -/
theorem generateSchedule_valid_C7 (days : List Day) (employees : List Employee)
    (hids : (employees.map (fun e => e.id)).Nodup)
    (hwin : ∀ day ∈ days, day.isOpen → day.start < day.stop) :
    ∀ p ∈ generateSchedule days employees, ∃ day ∈ days,
      p = (day.id, generateDay employees day) ∧
      (¬ day.isOpen → p.2 = []) ∧
      (∀ s ∈ p.2,
        (∃ emp ∈ employees, emp.id = s.employeeId ∧
          day.id ∉ emp.vacationDays) ∧
        s.start = day.start ∧ s.stop = day.stop ∧ s.start < s.stop) ∧
      noOverlapPerEmployee p.2 := by
  intro p hp
  unfold generateSchedule at hp
  rw [List.mem_map] at hp
  obtain ⟨day, hday, rfl⟩ := hp
  have hnd := nodup_sortedAvailable_ids employees day hids
  obtain ⟨g1, g2, g3⟩ := assignSkill_foldl day (sortedAvailable employees day)
    hnd day.requiredSkills ([], []) rfl List.nodup_nil
    (by intro s hs; exact absurd hs (List.not_mem_nil s))
  refine ⟨day, hday, rfl, ?_, ?_, ?_⟩
  · intro hcl
    show generateDay employees day = []
    unfold generateDay
    rw [if_neg hcl]
  · intro s hs
    by_cases hop : day.isOpen
    · have hs' : s ∈ (day.requiredSkills.foldl
          (assignSkill day (sortedAvailable employees day)) ([], [])).1 := by
        have : generateDay employees day = (day.requiredSkills.foldl
            (assignSkill day (sortedAvailable employees day)) ([], [])).1 := by
          unfold generateDay
          rw [if_pos hop]
        rw [← this]
        exact hs
      obtain ⟨⟨emp, hemem, heid⟩, hst, hsp⟩ := g3 s hs'
      obtain ⟨hemp, hvac⟩ := mem_sortedAvailable employees day emp hemem
      refine ⟨⟨emp, hemp, heid, hvac⟩, hst, hsp, ?_⟩
      rw [hst, hsp]
      exact hwin day hday hop
    · have : generateDay employees day = [] := by
        unfold generateDay
        rw [if_neg hop]
      rw [this] at hs
      exact absurd hs (List.not_mem_nil s)
  · by_cases hop : day.isOpen
    · have heq : generateDay employees day = (day.requiredSkills.foldl
          (assignSkill day (sortedAvailable employees day)) ([], [])).1 := by
        unfold generateDay
        rw [if_pos hop]
      show noOverlapPerEmployee (generateDay employees day)
      rw [heq]
      refine noOverlap_of_nodup_ids _ ?_
      rw [g1]
      exact g2
    · have : generateDay employees day = [] := by
        unfold generateDay
        rw [if_neg hop]
      show noOverlapPerEmployee (generateDay employees day)
      rw [this]
      exact List.Pairwise.nil

end Bah3

/-- C7 counterexample: sonnet.js books the best candidate for every
required skill without excluding employees already booked that day, so
on a day requiring two skills with a single employee it emits two
full-window shifts for the same employee — overlapping shifts of one
employee on one day, violating structural validity. -/
theorem sonnet_double_booking_C7 :
    Sonnet.advancedSchedule 50 [ExC7.day] [ExC7.emp] =
      [(1, [⟨1, 8, 10, "A".data⟩, ⟨1, 8, 10, "B".data⟩])] ∧
    ¬ noOverlapPerEmployee
      [(⟨1, 8, 10, "A".data⟩ : Bah3.Shift), ⟨1, 8, 10, "B".data⟩] := by
  exact ⟨by decide, by decide⟩

namespace Bah3

/-- Concrete instantiation of the C7 validity theorem: one open day,
one employee, and the generated pair for that day. -/
theorem generateSchedule_valid_C7_witness :
    ∃ day ∈ [(⟨1, true, 8, 10, 1000, ["A".data]⟩ : Day)],
      ((1, [⟨1, 8, 10, "A".data⟩]) : Nat × List Shift) =
        (day.id, generateDay [⟨1, 40, 10, 1, 1, ["A".data], []⟩] day) ∧
      (¬ day.isOpen →
        ((1, [⟨1, 8, 10, "A".data⟩]) : Nat × List Shift).2 = []) ∧
      (∀ s ∈ ((1, [⟨1, 8, 10, "A".data⟩]) : Nat × List Shift).2,
        (∃ emp ∈ [(⟨1, 40, 10, 1, 1, ["A".data], []⟩ : Employee)],
          emp.id = s.employeeId ∧ day.id ∉ emp.vacationDays) ∧
        s.start = day.start ∧ s.stop = day.stop ∧ s.start < s.stop) ∧
      noOverlapPerEmployee ((1, [⟨1, 8, 10, "A".data⟩]) :
        Nat × List Shift).2 :=
  generateSchedule_valid_C7 [⟨1, true, 8, 10, 1000, ["A".data]⟩]
    [⟨1, 40, 10, 1, 1, ["A".data], []⟩] (by decide) (by decide)
    (1, [⟨1, 8, 10, "A".data⟩]) (by decide)

end Bah3

namespace RepValidator

/-- Recording an error keeps every error already recorded. -/
theorem mem_logError (errs : List RErr) (e' e : RErr) (h : e ∈ errs) :
    e ∈ logError errs e' := by
  unfold logError
  split
  · exact h
  · exact List.mem_append.mpr (Or.inl h)

/-- The recorded error is present afterwards. -/
theorem self_mem_logError (errs : List RErr) (e : RErr) :
    e ∈ logError errs e := by
  unfold logError
  split
  · assumption
  · exact List.mem_append.mpr (Or.inr (List.mem_singleton.mpr rfl))

/-- The per-shift pass never discards a recorded error. -/
theorem processShift_errs_mono (org : ROrg) (employees : List REmployee)
    (sp : List (Nat × List (Skill × Nat))) (day : RDay)
    (st : ShiftLoopState) (s : RShift) (e : RErr) (h : e ∈ st.errs) :
    e ∈ (processShift org employees sp day st s).errs := by
  unfold processShift
  cases hfind : findREmployee employees s.employeeId with
  | none => exact mem_logError _ _ _ h
  | some emp =>
      dsimp only
      split
      · exact mem_logError _ _ _ (by
          split
          · exact mem_logError _ _ _ (by
              split
              · exact mem_logError _ _ _ h
              · exact h)
          · split
            · exact mem_logError _ _ _ h
            · exact h)
      · split
        · exact mem_logError _ _ _ (by
            split
            · exact mem_logError _ _ _ h
            · exact h)
        · split
          · exact mem_logError _ _ _ h
          · exact h

end RepValidator

namespace RepValidator

/-- The per-shift pass never removes an interval from the overlap pool. -/
theorem processShift_pool_mono (org : ROrg) (employees : List REmployee)
    (sp : List (Nat × List (Skill × Nat))) (day : RDay)
    (st : ShiftLoopState) (s : RShift) (eid : Nat) (iv : Nat × Nat)
    (h : iv ∈ (lookupA st.empShifts eid).getD []) :
    iv ∈ (lookupA (processShift org employees sp day st s).empShifts eid).getD [] := by
  unfold processShift
  cases hfind : findREmployee employees s.employeeId with
  | none => exact h
  | some emp =>
      dsimp only
      split
      · exact h
      · by_cases heid : s.employeeId = eid
        · subst heid
          rw [lookupA_setA_self]
          exact List.mem_append.mpr (Or.inl h)
        · rw [lookupA_setA_ne _ _ _ _ heid]
          exact h

/-- A shift of a known employee either triggers an overlap report or has
its interval accepted into the pool. -/
theorem processShift_known (org : ROrg) (employees : List REmployee)
    (sp : List (Nat × List (Skill × Nat))) (day : RDay)
    (st : ShiftLoopState) (s : RShift) (emp : REmployee)
    (hfind : findREmployee employees s.employeeId = some emp) :
    RErr.overlap day.id s.employeeId ∈
        (processShift org employees sp day st s).errs ∨
      (s.start, s.stop) ∈
        (lookupA (processShift org employees sp day st s).empShifts
          s.employeeId).getD [] := by
  unfold processShift
  rw [hfind]
  dsimp only
  split
  · exact Or.inl (self_mem_logError _ _)
  · refine Or.inr ?_
    rw [lookupA_setA_self]
    exact List.mem_append.mpr (Or.inr (List.mem_singleton.mpr rfl))

/-- A shift of a known employee overlapping a pooled interval of that
employee triggers an overlap report. -/
theorem processShift_detect (org : ROrg) (employees : List REmployee)
    (sp : List (Nat × List (Skill × Nat))) (day : RDay)
    (st : ShiftLoopState) (s : RShift) (emp : REmployee)
    (hfind : findREmployee employees s.employeeId = some emp)
    (iv : Nat × Nat) (hiv : iv ∈ (lookupA st.empShifts s.employeeId).getD [])
    (hov : max s.start iv.1 < min s.stop iv.2) :
    RErr.overlap day.id s.employeeId ∈
      (processShift org employees sp day st s).errs := by
  unfold processShift
  rw [hfind]
  dsimp only
  have hany : ((lookupA st.empShifts s.employeeId).getD []).any
      (fun t => decide (max s.start t.1 < min s.stop t.2)) = true :=
    List.any_eq_true.mpr ⟨iv, hiv, decide_eq_true hov⟩
  rw [if_pos hany]
  exact self_mem_logError _ _

/-- Recorded errors persist through the whole per-shift loop. -/
theorem foldl_processShift_errs_mono (org : ROrg) (employees : List REmployee)
    (sp : List (Nat × List (Skill × Nat))) (day : RDay) (e : RErr) :
    ∀ (l : List RShift) (st : ShiftLoopState), e ∈ st.errs →
      e ∈ (l.foldl (processShift org employees sp day) st).errs := by
  intro l
  induction l with
  | nil => intro st h; exact h
  | cons x rest ih =>
      intro st h
      rw [List.foldl_cons]
      exact ih _ (processShift_errs_mono org employees sp day st x e h)

/-- Pooled intervals persist through the whole per-shift loop. -/
theorem foldl_processShift_pool_mono (org : ROrg) (employees : List REmployee)
    (sp : List (Nat × List (Skill × Nat))) (day : RDay) (eid : Nat)
    (iv : Nat × Nat) :
    ∀ (l : List RShift) (st : ShiftLoopState),
      iv ∈ (lookupA st.empShifts eid).getD [] →
      iv ∈ (lookupA (l.foldl (processShift org employees sp day) st).empShifts
        eid).getD [] := by
  intro l
  induction l with
  | nil => intro st h; exact h
  | cons x rest ih =>
      intro st h
      rw [List.foldl_cons]
      exact ih _ (processShift_pool_mono org employees sp day st x eid iv h)

end RepValidator

namespace RepValidator

/-- If a later shift of the loop overlaps an interval already pooled for
its (known) employee, an overlap report is present at the end of the
loop. -/
theorem overlap_from_pool (org : ROrg) (employees : List REmployee)
    (sp : List (Nat × List (Skill × Nat))) (day : RDay) (t : RShift)
    (emp : REmployee) (hfind : findREmployee employees t.employeeId = some emp)
    (iv : Nat × Nat) (hov : max t.start iv.1 < min t.stop iv.2) :
    ∀ (l2 l3 : List RShift) (st : ShiftLoopState),
      iv ∈ (lookupA st.empShifts t.employeeId).getD [] →
      RErr.overlap day.id t.employeeId ∈
        ((l2 ++ t :: l3).foldl (processShift org employees sp day) st).errs := by
  intro l2
  induction l2 with
  | nil =>
      intro l3 st hiv
      rw [List.nil_append, List.foldl_cons]
      exact foldl_processShift_errs_mono org employees sp day _ l3 _
        (processShift_detect org employees sp day st t emp hfind iv hiv hov)
  | cons x rest ih =>
      intro l3 st hiv
      rw [List.cons_append, List.foldl_cons]
      exact ih l3 _ (processShift_pool_mono org employees sp day st x _ iv hiv)

/-- Two overlapping shifts of one known employee inside one day's shift
loop always leave an overlap report, wherever they sit in the list. -/
theorem overlap_reported (org : ROrg) (employees : List REmployee)
    (sp : List (Nat × List (Skill × Nat))) (day : RDay) (s t : RShift)
    (hemp : t.employeeId = s.employeeId) (emp : REmployee)
    (hfind : findREmployee employees s.employeeId = some emp)
    (hov : max s.start t.start < min s.stop t.stop) :
    ∀ (l1 l2 l3 : List RShift) (st : ShiftLoopState),
      RErr.overlap day.id s.employeeId ∈
        ((l1 ++ s :: l2 ++ t :: l3).foldl
          (processShift org employees sp day) st).errs := by
  intro l1
  induction l1 with
  | nil =>
      intro l2 l3 st
      rw [List.nil_append, List.cons_append, List.foldl_cons]
      rcases processShift_known org employees sp day st s emp hfind with herr | hpool
      · exact foldl_processShift_errs_mono org employees sp day _ _ _ herr
      · have hfind' : findREmployee employees t.employeeId = some emp := by
          rw [hemp]; exact hfind
        have hov' : max t.start (s.start, s.stop).1 <
            min t.stop (s.start, s.stop).2 := by
          simp only
          omega
        have := overlap_from_pool org employees sp day t emp hfind'
          (s.start, s.stop) hov' l2 l3
          (processShift org employees sp day st s) (by rw [hemp]; exact hpool)
        rw [hemp] at this
        exact this
  | cons x rest ih =>
      intro l2 l3 st
      rw [List.cons_append, List.cons_append, List.foldl_cons]
      exact ih l2 l3 _

end RepValidator

namespace RepValidator

/-- The parse-stage shaping of a day never discards a recorded error. -/
theorem prepareDay_errs_mono (day : RDay) (raw : List RShift) (e : RErr)
    (errs : List RErr) (h : e ∈ errs) : e ∈ (prepareDay errs day raw).1 := by
  unfold prepareDay
  split
  · exact mem_logError _ _ _ h
  · have key : ∀ (l : List RShift) (acc : List RErr × List RShift), e ∈ acc.1 →
        e ∈ (l.foldl (fun acc s =>
          if s.stop ≤ s.start then (logError acc.1 (RErr.malformedShift day.id s), acc.2)
          else (acc.1, acc.2 ++ [s])) acc).1 := by
      intro l
      induction l with
      | nil => intro acc h; exact h
      | cons x rest ih =>
          intro acc h
          rw [List.foldl_cons]
          refine ih _ ?_
          split
          · exact mem_logError _ _ _ h
          · exact h
    exact key raw (errs, []) h

/-- One scored day never discards a recorded error. -/
theorem processDay_errs_mono (org : ROrg) (employees : List REmployee)
    (st : RepState) (day : RDay) (raw : List RShift) (e : RErr)
    (h : e ∈ st.errs) : e ∈ (processDay org employees st day raw).1.errs := by
  unfold processDay
  dsimp only
  split
  · exact prepareDay_errs_mono day raw e st.errs h
  · exact foldl_processShift_errs_mono org employees st.skillPoints day e _ _
      (prepareDay_errs_mono day raw e st.errs h)

/-- The whole run never discards a recorded error: the validator keeps
processing every later day and shift after a fault. -/
theorem runRep_errs_mono (org : ROrg) (employees : List REmployee) (e : RErr) :
    ∀ (sched : List (RDay × List RShift)) (st : RepState), e ∈ st.errs →
      e ∈ (runRep org employees sched st).1.errs := by
  intro sched
  induction sched with
  | nil => intro st h; exact h
  | cons p rest ih =>
      intro st h
      unfold runRep
      exact ih _ (processDay_errs_mono org employees st p.1 p.2 e h)

end RepValidator

namespace RepValidator

/-- C9: the reference validator does not stop at the first fault — every
recorded error survives the remainder of the whole run; two overlapping
shifts of one known employee inside a day's shift loop always leave an
overlap report, wherever they sit in the list; and a run that ends with
any recorded error reports score 0 instead of the computed profit. -/
theorem rep_validator_faults_C9 :
    (∀ (org : ROrg) (employees : List REmployee)
        (sched : List (RDay × List RShift)) (st : RepState) (e : RErr),
        e ∈ st.errs → e ∈ (runRep org employees sched st).1.errs) ∧
    (∀ (org : ROrg) (employees : List REmployee)
        (sp : List (Nat × List (Skill × Nat))) (day : RDay) (s t : RShift)
        (emp : REmployee) (l1 l2 l3 : List RShift) (st : ShiftLoopState),
        t.employeeId = s.employeeId →
        findREmployee employees s.employeeId = some emp →
        max s.start t.start < min s.stop t.stop →
        RErr.overlap day.id s.employeeId ∈
          ((l1 ++ s :: l2 ++ t :: l3).foldl
            (processShift org employees sp day) st).errs) ∧
    (∀ (org : ROrg) (employees : List REmployee)
        (sched : List (RDay × List RShift)),
        (runRep org employees sched (initialRepState employees)).1.errs ≠ [] →
        reportedScore org employees sched = 0) := by
  refine ⟨?_, ?_, ?_⟩
  · intro org employees sched st e h
    exact runRep_errs_mono org employees e sched st h
  · intro org employees sp day s t emp l1 l2 l3 st hemp hfind hov
    exact overlap_reported org employees sp day s t hemp emp hfind hov l1 l2 l3 st
  · intro org employees sched hne
    unfold reportedScore
    rw [if_neg (by simpa using hne)]

end RepValidator

/-- Concrete instantiation of the C9 theorem: the overlapping run on
one day is reported with score 0. -/
theorem rep_validator_faults_C9_witness :
    RepValidator.reportedScore ⟨50, 0⟩ [ExC9.emp] [(ExC9.day, ExC9.shifts)] = 0 :=
  RepValidator.rep_validator_faults_C9.2.2 ⟨50, 0⟩ [ExC9.emp]
    [(ExC9.day, ExC9.shifts)] (by decide)

/-- C9 counterexample: the day's three shifts contain two distinct
overlapping pairs (the second shift overlaps the first, and the third
overlaps the second), yet the run records exactly one overlap error: the
overlapping second shift is never added to the overlap pool, so the
third shift's overlap with it goes undetected, and `_logError`
deduplicates by message so even a detected repeat would not appear —
the validator does not report every violation instance. -/
theorem rep_overlap_instances_missed_C9 :
    ExC9.shifts = [⟨7, 1, 3, "A".data⟩, ⟨7, 2, 5, "A".data⟩, ⟨7, 4, 6, "A".data⟩] ∧
    max (1 : Nat) 2 < min 3 5 ∧ max (2 : Nat) 4 < min 5 6 ∧
    (RepValidator.runRep ⟨50, 0⟩ [ExC9.emp] [(ExC9.day, ExC9.shifts)]
      (RepValidator.initialRepState [ExC9.emp])).1.errs =
      [RepValidator.RErr.overlap 1 7] := by
  refine ⟨rfl, by decide, by decide, by decide⟩
